import Mathlib

/-!
Verification development for the `offset_polygon` crate.

The Rust sources (`src/lib.rs`, `src/intersect.rs`, `src/error.rs`) implement a
polygon offsetting algorithm, generic over a numeric type
`N : Num + NumCast + PartialOrd + Float + FloatConst + ...`.  We mirror this
genericity: the embedding is parametric in a `LinearOrderedField N` (the exact
arithmetic: `+ - * / abs` and the order) together with a `FloatOps N` structure
holding the operations that the Rust `Float`/`FloatConst` bounds provide
(`epsilon`, `PI`, `sqrt`, `atan2`, `cos`, `sin`, and the `ceil`-then-cast-to-`usize`
combination).  Numeric literals created in the source via `N::from(...)` /
`N::from_f32(...)` are modelled by their exact decimal value as a rational cast.

Modelling conventions:
* machine floats are idealised as exact field elements; `is_sign_negative()` is
  modelled as `< 0` (there is no `-0.0` in a field);
* `Vec` indexing that is in range by construction is modelled with `getD`;
  the one indexing operation that is reachable out of range
  (`connected.push(connected[0])` on an empty `connected`, and the final
  rebuild) is modelled explicitly as the `indexOutOfBounds` outcome;
* `usize` subtraction such as `len - 1` is modelled by truncated `Nat`
  subtraction where underflow is unreachable; the one reachable underflow —
  the range bound `0..(line.0.len()-1)` of `intersect` when the resolution
  loop hands it an empty `rest` polyline, which panics in Rust (overflow
  check in debug, out-of-bounds `line.0[idx]` in release) — is modelled
  explicitly as the `intersectPanic` outcome at that call site;
* the two `while`/`loop` constructs of the resolution phase and the
  decomposition walk are modelled with explicit fuel; a dedicated outcome
  records fuel exhaustion, and we prove the chosen fuel is always sufficient.
-/

set_option maxRecDepth 10000
set_option linter.unusedVariables false

namespace OffsetPoly

/-- Mirror of `geo_types::Coordinate<N>`. -/
structure Coordinate (N : Type) where
  x : N
  y : N
deriving DecidableEq, Repr

/-- Mirror of the private `Normal<N>` struct of `src/lib.rs`. -/
structure Normal (N : Type) where
  x : N
  y : N
deriving DecidableEq, Repr

/-- Mirror of the private `Segment<N>` struct of `src/lib.rs`. -/
structure Segment (N : Type) where
  p0 : Coordinate N
  p1 : Coordinate N
  p1_orig : Coordinate N
  normal : Normal N
deriving DecidableEq, Repr

/-- Mirror of the private `Index` enum of `src/lib.rs`. -/
inductive Index where
  | intersection (idx : ℕ)
  | connected (idx : ℕ)
deriving DecidableEq, Repr

/-- The operations that the Rust trait bounds `Float + FloatConst` provide to
the generic code, collected in one structure.  `ceilToNat` models the
combination `<usize as NumCast>::from(x.ceil()).unwrap()` used for the arc
sample count (its argument is provably nonnegative whenever the arc resolution
is positive). -/
structure FloatOps (N : Type) where
  epsilon : N
  pi : N
  sqrt : N → N
  atan2 : N → N → N
  cos : N → N
  sin : N → N
  ceilToNat : N → ℕ

variable {N : Type}

/-- Mirror of `cross_product` from `src/intersect.rs`. -/
def cross_product [LinearOrderedField N] (a b : Coordinate N) : N :=
  a.x * b.y - a.y * b.x

/-- Mirror of `IntersectionResult<N>` from `src/intersect.rs`. -/
structure IntersectionResult (N : Type) where
  u : N
  t : N
  point : Coordinate N
  index : ℕ
deriving DecidableEq, Repr

/-- The four mutable locals of `intersect` from `src/intersect.rs`. -/
structure IntersectState (N : Type) where
  intersection_u : N
  intersection_t : Option N
  intersection_point : Option (Coordinate N)
  intersection_index : Option ℕ
deriving DecidableEq, Repr

/-- One iteration of the edge loop of `intersect` (`src/intersect.rs`,
lines 28–58), at reference edge index `idx`. -/
def intersectStep [LinearOrderedField N] (ops : FloatOps N)
    (start s : Coordinate N) (exclude_points : Bool) (line : List (Coordinate N))
    (st : IntersectState N) (idx : ℕ) : IntersectState N :=
  let p0 := line.getD idx ⟨0, 0⟩
  let p1 := line.getD (idx + 1) ⟨0, 0⟩
  let r : Coordinate N := ⟨p1.x - p0.x, p1.y - p0.y⟩
  let rxs := cross_product r s
  if |rxs| < ops.epsilon then st
  else
    let q_p : Coordinate N := ⟨start.x - p0.x, start.y - p0.y⟩
    let u := cross_product q_p r / rxs
    if u < ops.epsilon ∨ u > st.intersection_u then st
    else
      let t := cross_product q_p s / rxs
      if (exclude_points = false ∧ (t < 0 ∨ t > 1)) ∨
          (exclude_points = true ∧
            (t < ((1 / 100000 : ℚ) : N) ∨ t > ((999999 / 1000000 : ℚ) : N))) then st
      else
        ⟨u, some t, some ⟨start.x + u * s.x, start.y + u * s.y⟩, some idx⟩

/-- Mirror of `intersect` from `src/intersect.rs`: nearest valid crossing of the
directed segment `start → endp` against the reference polyline `line`.
(The Rust parameter is named `end`, a reserved word in Lean.) -/
def intersect [LinearOrderedField N] (ops : FloatOps N)
    (start endp : Coordinate N) (line : List (Coordinate N))
    (exclude_points : Bool) : Option (IntersectionResult N) :=
  let s : Coordinate N := ⟨endp.x - start.x, endp.y - start.y⟩
  let final := (List.range (line.length - 1)).foldl
    (intersectStep ops start s exclude_points line) ⟨(1 : N), none, none, none⟩
  match final.intersection_point with
  | some point =>
      some ⟨final.intersection_u, final.intersection_t.getD 0, point,
        final.intersection_index.getD 0⟩
  | none => none

/-- Mirror of `is_left` from `src/lib.rs`. -/
def is_left [LinearOrderedField N] (p0 p1 p2 : Coordinate N) : N :=
  (p1.x - p0.x) * (p2.y - p0.y) - (p2.x - p0.x) * (p1.y - p0.y)

/-- The tolerance `N::from_f32(-0.00001).unwrap()` of `winding_number`,
idealised as the exact rational `-1/100000`. -/
def windingEpsilon [LinearOrderedField N] : N := ((-1 / 100000 : ℚ) : N)

/-- One iteration of the edge loop of `winding_number` (`src/lib.rs`,
lines 39–55). -/
def windingStep [LinearOrderedField N] (pt : Coordinate N)
    (polygon : List (Coordinate N)) (wn : ℤ) (idx : ℕ) : ℤ :=
  let p0 := polygon.getD idx ⟨0, 0⟩
  let p1 := polygon.getD (idx + 1) ⟨0, 0⟩
  if p0.y ≤ pt.y then
    if p1.y > pt.y then
      if is_left p0 p1 pt ≥ windingEpsilon then wn + 1 else wn
    else wn
  else
    if p1.y ≤ pt.y then
      if is_left p0 p1 pt < windingEpsilon then wn - 1 else wn
    else wn

/-- Mirror of `winding_number` from `src/lib.rs` (the `isize` accumulator is
modelled as `ℤ`). -/
def winding_number [LinearOrderedField N] (pt : Coordinate N)
    (polygon : List (Coordinate N)) : ℤ :=
  (List.range (polygon.length - 1)).foldl (windingStep pt polygon) 0

/-- Mirror of the `lines` construction of `offset_polygon` (`src/lib.rs`,
lines 66–89): per retained input edge, the offset endpoints, the original
second endpoint and the unit outward normal.  Edges shorter than machine
epsilon are dropped. -/
def buildSegments [LinearOrderedField N] (ops : FloatOps N) (offset : N)
    (polygon : List (Coordinate N)) : List (Segment N) :=
  (List.range (polygon.length - 1)).filterMap fun idx =>
    let p0 := polygon.getD idx ⟨0, 0⟩
    let p1 := polygon.getD (idx + 1) ⟨0, 0⟩
    let len := ops.sqrt ((p0.x - p1.x) * (p0.x - p1.x) + (p0.y - p1.y) * (p0.y - p1.y))
    if len < ops.epsilon then none
    else
      let normal : Normal N := ⟨(p1.y - p0.y) / len, (p0.x - p1.x) / len⟩
      some ⟨⟨p0.x + offset * normal.x, p0.y + offset * normal.y⟩,
            ⟨p1.x + offset * normal.x, p1.y + offset * normal.y⟩,
            p1, normal⟩

/-- The wrapped signed angle between the normals of two consecutive offset
edges, as computed by `offset_polygon` (`src/lib.rs`, lines 96–104): the
difference of the `atan2` angles wrapped into `[0, 2π)`, replaced by
`2π - angle` when the offset is negative. -/
def joinAngle [LinearOrderedField N] (ops : FloatOps N) (offset : N)
    (line0 line1 : Segment N) : N :=
  let startangle := ops.atan2 line0.normal.y line0.normal.x
  let endangle := ops.atan2 line1.normal.y line1.normal.x
  let angle := startangle - endangle
  let angle := if angle < 0 then angle + ((2 : ℚ) : N) * ops.pi else angle
  if offset < 0 then ((2 : ℚ) : N) * ops.pi - angle else angle

/-- The interior samples of an arc join (`src/lib.rs`, lines 116–122 for a
negative offset, lines 127–133 for a positive offset): `for step in 1..m`,
a point at angle `startangle ∓ step * arcstep` on the circle of radius
`|offset|` around the original shared vertex. -/
def arcSamples [LinearOrderedField N] (ops : FloatOps N) (offset arcstep : N)
    (center : Coordinate N) (startangle : N) (negDir : Bool) (m : ℕ) :
    List (Coordinate N) :=
  (List.range' 1 (m - 1)).map fun (step : ℕ) =>
    let angle := if negDir then startangle - (step : N) * arcstep
                 else startangle + (step : N) * arcstep
    ⟨center.x + offset * ops.cos angle, center.y + offset * ops.sin angle⟩

/-- The unwrapping of the outgoing normal's angle across the `0/2π` boundary
performed in the negative-offset arc branch (`src/lib.rs`, lines 113–115). -/
def arcEndNeg [LinearOrderedField N] (ops : FloatOps N) (startangle endangle : N) : N :=
  if endangle > startangle then endangle - ((2 : ℚ) : N) * ops.pi else endangle

/-- The unwrapping of the outgoing normal's angle across the `0/2π` boundary
performed in the positive-offset arc branch (`src/lib.rs`, lines 124–126). -/
def arcEndPos [LinearOrderedField N] (ops : FloatOps N) (startangle endangle : N) : N :=
  if endangle < startangle then endangle + ((2 : ℚ) : N) * ops.pi else endangle

/-- One iteration of the corner loop of `offset_polygon` (`src/lib.rs`,
lines 93–136): append the two offset endpoints of `line0`, then handle the
join towards `line1` according to the wrapped angle. -/
def joinStep [LinearOrderedField N] (ops : FloatOps N) (offset arcstep : N)
    (line0 line1 : Segment N) (connected : List (Coordinate N)) :
    List (Coordinate N) :=
  let connected := connected ++ [line0.p0, line0.p1]
  let startangle := ops.atan2 line0.normal.y line0.normal.x
  let endangle := ops.atan2 line1.normal.y line1.normal.x
  let angle := joinAngle ops offset line0 line1
  if angle < ops.pi then
    if angle > ops.epsilon then connected ++ [line0.p1_orig]
    else connected.dropLast
  else if angle > ops.pi then
    if offset < 0 then
      let m := ops.ceilToNat ((startangle - arcEndNeg ops startangle endangle) / arcstep)
      connected ++ arcSamples ops offset arcstep line0.p1_orig startangle true m
    else
      let m := ops.ceilToNat ((arcEndPos ops startangle endangle - startangle) / arcstep)
      connected ++ arcSamples ops offset arcstep line0.p1_orig startangle false m
  else connected

/-- A junk segment used as the (never reached) default of in-range lookups. -/
def segDefault [LinearOrderedField N] : Segment N :=
  ⟨⟨0, 0⟩, ⟨0, 0⟩, ⟨0, 0⟩, ⟨0, 0⟩⟩

/-- Mirror of the corner loop of `offset_polygon` (`src/lib.rs`, lines 93–136):
walk the retained offset edges cyclically, pairing edge `idx` with edge
`(idx+1) % lines.len()`. -/
def buildConnected [LinearOrderedField N] (ops : FloatOps N) (offset arcstep : N)
    (lines : List (Segment N)) : List (Coordinate N) :=
  (List.range lines.length).foldl (fun connected idx =>
    joinStep ops offset arcstep (lines.getD idx segDefault)
      (lines.getD ((idx + 1) % lines.length) segDefault) connected) []

/-- Mirror of the `lookup` closure of `offset_polygon` (`src/lib.rs`,
lines 142–147). -/
def lookup [LinearOrderedField N] (intersections connected : List (Coordinate N)) :
    Index → Coordinate N
  | .intersection idx => intersections.getD idx ⟨0, 0⟩
  | .connected idx => connected.getD idx ⟨0, 0⟩

/-- Mirror of the `rest` construction of the resolution loop (`src/lib.rs`,
lines 156–162): every index except the current edge (and its endpoint). -/
def restOf (indices : List Index) (indices_idx : ℕ) : List Index :=
  if indices_idx + 2 < indices.length then
    indices.drop (indices_idx + 2) ++ indices.take indices_idx
  else
    (indices.take indices_idx).drop ((indices_idx + 2) % indices.length)

/-- Outcome of the self-intersection resolution loop.  Unlike the Rust code,
the `explosion` constructor records the intersections list at the moment of
failure (`offset_polygon` discards it); `intersectPanic` models the panic
raised inside `intersect` when the loop hands it an empty reference polyline:
the range bound `line.0.len() - 1` (`src/intersect.rs`, line 28) underflows
`usize` there (in release mode the wrapped bound makes `line.0[idx]` index an
empty `Vec`), which happens exactly when `rest` is empty, i.e. when the
resolution sequence has two entries; `fuelOut` is the fuel-exhaustion
sentinel of the model, proved unreachable below. -/
inductive ResolveResult (N : Type) where
  | done (indices : List Index) (intersections : List (Coordinate N))
  | explosion (intersections : List (Coordinate N))
  | intersectPanic
  | fuelOut
deriving DecidableEq, Repr

/-- Phase marker for the resolution loop: `outer` is the head of the `while`
loop (`src/lib.rs`, line 150), `inner p0 p1` is the head of the inner `loop`
(line 154) with its current query segment. -/
inductive ResolvePhase (N : Type) where
  | outer
  | inner (p0 p1 : Coordinate N)
deriving DecidableEq, Repr

/-- Mirror of the self-intersection resolution of `offset_polygon`
(`src/lib.rs`, lines 149–182), with explicit fuel.  One unit of fuel is spent
per check of either loop head. -/
def resolveLoop [LinearOrderedField N] (ops : FloatOps N)
    (connected : List (Coordinate N)) :
    ℕ → ResolvePhase N → List Index → List (Coordinate N) → ℕ → ResolveResult N
  | 0, _, _, _, _ => .fuelOut
  | fuel + 1, .outer, indices, intersections, indices_idx =>
    if indices_idx < indices.length - 1 then
      let p0 := lookup intersections connected (indices.getD indices_idx (.connected 0))
      let p1 := lookup intersections connected
        (indices.getD ((indices_idx + 1) % indices.length) (.connected 0))
      resolveLoop ops connected fuel (.inner p0 p1) indices intersections indices_idx
    else .done indices intersections
  | fuel + 1, .inner p0 p1, indices, intersections, indices_idx =>
    let rest := restOf indices indices_idx
    let rest_points := rest.map (lookup intersections connected)
    if rest_points = [] then .intersectPanic
    else match intersect ops p0 p1 rest_points true with
    | some int =>
      let intersections := intersections ++ [int.point]
      if intersections.length > 3000 then .explosion intersections
      else
        let indices := indices.insertIdx (indices_idx + 1)
          (.intersection (intersections.length - 1))
        let other0 := (indices_idx + 3 + int.index) % indices.length
        let other := if other0 > indices_idx then other0 + 1 else other0
        let indices := indices.insertIdx other (.intersection (intersections.length - 1))
        resolveLoop ops connected fuel (.inner int.point p1) indices intersections
          (indices_idx + 1)
    | none =>
      resolveLoop ops connected fuel .outer indices intersections (indices_idx + 1)

/-- Fuel that is always sufficient for `resolveLoop` (proved below). -/
def resolveFuel (n : ℕ) : ℕ := 2 * n + 4 * 3001 + 4

/-- Mirror of the jump performed at a `Crossing` ref during the decomposition
walk (`src/lib.rs`, lines 200–203): the position of the other occurrence of the
same `Index` value, searching forward from the current position, else from the
start of the sequence. -/
def jumpTarget (indices : List Index) (p : ℕ) : ℕ :=
  let v := indices.getD p (.connected 0)
  match (indices.drop (p + 1)).findIdx? (fun i => i == v) with
  | some i => i + p + 1
  | none => indices.findIdx (fun i => i == v)

/-- Outcome of one decomposition walk (`src/lib.rs`, lines 192–213). -/
inductive WalkResult (N : Type) where
  | ok (region : List (Coordinate N)) (remaining : List ℕ)
  | fuelOut
deriving DecidableEq, Repr

/-- Mirror of the inner walk of the decomposition (`src/lib.rs`,
lines 192–213), with explicit fuel: record the referenced point, drop the
position from `remaining`, advance (jumping at a crossing), stop when back at
`start_idx`. -/
def walkLoop [LinearOrderedField N] (indices : List Index)
    (intersections connected : List (Coordinate N)) (start_idx : ℕ) :
    ℕ → ℕ → List (Coordinate N) → List ℕ → WalkResult N
  | 0, _, _, _ => .fuelOut
  | fuel + 1, indices_idx, region, remaining =>
    let idx := indices.getD indices_idx (.connected 0)
    let remaining := remaining.erase indices_idx
    let step : List (Coordinate N) × ℕ :=
      match idx with
      | .intersection idx_num =>
          (region ++ [intersections.getD idx_num ⟨0, 0⟩], jumpTarget indices indices_idx)
      | .connected idx_num =>
          (region ++ [connected.getD idx_num ⟨0, 0⟩], indices_idx)
    let region := step.1
    let indices_idx := (step.2 + 1) % indices.length
    if start_idx = indices_idx then .ok region remaining
    else walkLoop indices intersections connected start_idx fuel indices_idx region remaining

/-- Outcome of the region decomposition (`src/lib.rs`, lines 185–218). -/
inductive DecomposeResult (N : Type) where
  | ok (regions : List (List (Coordinate N)))
  | fuelOut
deriving DecidableEq, Repr

/-- Mirror of the outer decomposition loop (`src/lib.rs`, lines 187–218):
while positions remain, walk a region from the smallest remaining one and
record it (closed by its first point) when nonempty. -/
def decomposeLoop [LinearOrderedField N] (indices : List Index)
    (intersections connected : List (Coordinate N)) :
    ℕ → List ℕ → List (List (Coordinate N)) → DecomposeResult N
  | 0, remaining, regions => if remaining = [] then .ok regions else .fuelOut
  | fuel + 1, remaining, regions =>
    match remaining with
    | [] => .ok regions
    | start :: _ =>
      match walkLoop indices intersections connected start (indices.length + 1)
          start [] remaining with
      | .fuelOut => .fuelOut
      | .ok region remaining =>
        let regions :=
          if region.length > 0 then regions ++ [region ++ [region.getD 0 ⟨0, 0⟩]]
          else regions
        decomposeLoop indices intersections connected fuel remaining regions

/-- The epsilon `N::from_f32(0.01).unwrap()` of the final filter
(`src/lib.rs`, line 223), idealised as the exact rational `1/100`. -/
def filterEpsilon [LinearOrderedField N] : N := ((1 / 100 : ℚ) : N)

/-- Mirror of the final filter closure of `offset_polygon` (`src/lib.rs`,
lines 224–236): find the first edge of the region whose endpoints differ in `y`
by more than `0.01`; keep the region iff the winding number of that edge's
midpoint against the resolved boundary is exactly 1; reject if no such edge. -/
def regionFilter [LinearOrderedField N] (connected : List (Coordinate N))
    (region : List (Coordinate N)) : Bool :=
  match (List.range (region.length - 1)).find? (fun idx =>
      let p0 := region.getD idx ⟨0, 0⟩
      let p1 := region.getD (idx + 1) ⟨0, 0⟩
      decide (|p1.y - p0.y| > filterEpsilon)) with
  | some idx =>
    let p0 := region.getD idx ⟨0, 0⟩
    let p1 := region.getD (idx + 1) ⟨0, 0⟩
    decide (winding_number
      ⟨(p0.x + p1.x) * ((1 / 2 : ℚ) : N), (p0.y + p1.y) * ((1 / 2 : ℚ) : N)⟩
      connected = 1)
  | none => false

/-- Result of `offset_polygon`.  `ok`/`combinatorialExplosion` mirror the Rust
`Result`; `indexOutOfBounds` models a `Vec` indexing panic (reachable via
`connected[0]` on an empty boundary); `intersectPanic` models the panic inside
`intersect` on an empty `rest` (see `ResolveResult.intersectPanic`);
`fuelExhausted` is the model's fuel sentinel, proved unreachable below. -/
inductive OffsetResult (N : Type) where
  | ok (rings : List (List (Coordinate N)))
  | combinatorialExplosion
  | indexOutOfBounds
  | intersectPanic
  | fuelExhausted
deriving DecidableEq, Repr

/-- Mirror of `offset_polygon` from `src/lib.rs`. -/
def offset_polygon [LinearOrderedField N] (ops : FloatOps N)
    (polygon : List (Coordinate N)) (offset arcdetail : N) : OffsetResult N :=
  if polygon.length = 0 then .ok [[]]
  else
    let arcstep := ((2 : ℚ) : N) * ops.pi / arcdetail
    let lines := buildSegments ops offset polygon
    let connected0 := buildConnected ops offset arcstep lines
    match connected0 with
    | [] => .indexOutOfBounds
    | c0 :: _ =>
      let connected := connected0 ++ [c0]
      let indices0 : List Index := (List.range (connected.length - 1)).map .connected
      match resolveLoop ops connected (resolveFuel indices0.length) .outer indices0 [] 0 with
      | .fuelOut => .fuelExhausted
      | .intersectPanic => .intersectPanic
      | .explosion _ => .combinatorialExplosion
      | .done indices intersections =>
        match decomposeLoop indices intersections connected indices.length
            (List.range indices.length) [] with
        | .fuelOut => .fuelExhausted
        | .ok regions =>
          let connected2 := indices.map (lookup intersections connected)
          match connected2 with
          | [] => .indexOutOfBounds
          | d0 :: _ =>
            let connected3 := connected2 ++ [d0]
            .ok (regions.filter (regionFilter connected3))

/-!
A computable model of the field `ℚ(√2)`, used to run the embedding on concrete
inputs whose offset geometry involves `√2` (the 45° triangle of the crate's
own test suite).  The order is decided by exact rational arithmetic and proved
correct against the embedding `toReal x = x.a + x.b * √2`.
-/

/-- The field `ℚ(√2)`: the element `⟨a, b⟩` denotes `a + b·√2`. -/
structure Q2 where
  a : ℚ
  b : ℚ
deriving DecidableEq, Repr

namespace Q2

instance : Zero Q2 := ⟨⟨0, 0⟩⟩

instance : One Q2 := ⟨⟨1, 0⟩⟩

instance : Add Q2 := ⟨fun x y => ⟨x.a + y.a, x.b + y.b⟩⟩

instance : Neg Q2 := ⟨fun x => ⟨-x.a, -x.b⟩⟩

instance : Sub Q2 := ⟨fun x y => ⟨x.a - y.a, x.b - y.b⟩⟩

instance : Mul Q2 := ⟨fun x y => ⟨x.a * y.a + 2 * x.b * y.b, x.a * y.b + x.b * y.a⟩⟩

instance : Inv Q2 :=
  ⟨fun x => ⟨x.a / (x.a ^ 2 - 2 * x.b ^ 2), -x.b / (x.a ^ 2 - 2 * x.b ^ 2)⟩⟩

instance : Div Q2 := ⟨fun x y => x * y⁻¹⟩

instance : SMul ℕ Q2 := ⟨fun n x => ⟨n • x.a, n • x.b⟩⟩

instance : SMul ℤ Q2 := ⟨fun n x => ⟨n • x.a, n • x.b⟩⟩

instance : SMul ℚ≥0 Q2 := ⟨fun q x => ⟨q • x.a, q • x.b⟩⟩

instance : SMul ℚ Q2 := ⟨fun q x => ⟨q • x.a, q • x.b⟩⟩

instance : Pow Q2 ℕ := ⟨fun x n => npowRec n x⟩

instance : Pow Q2 ℤ := ⟨fun x n => zpowRec npowRec n x⟩

instance : NatCast Q2 := ⟨fun n => ⟨n, 0⟩⟩

instance : IntCast Q2 := ⟨fun n => ⟨n, 0⟩⟩

instance : NNRatCast Q2 := ⟨fun q => ⟨q, 0⟩⟩

instance : RatCast Q2 := ⟨fun q => ⟨q, 0⟩⟩

/-- Interpretation of `Q2` in the real numbers. -/
noncomputable def toReal (x : Q2) : ℝ := x.a + x.b * Real.sqrt 2

theorem sqrt_two_sq : Real.sqrt 2 * Real.sqrt 2 = 2 :=
  Real.mul_self_sqrt (by norm_num)

theorem mk_eq_zero_iff (p q : ℚ) : (⟨p, q⟩ : Q2) = 0 ↔ p = 0 ∧ q = 0 := by
  show (⟨p, q⟩ : Q2) = ⟨0, 0⟩ ↔ _
  constructor
  · intro h
    exact ⟨congrArg a h, congrArg b h⟩
  · rintro ⟨h1, h2⟩
    rw [h1, h2]

theorem toReal_injective : Function.Injective toReal := by
  intro x y h
  have h0 : (x.a : ℝ) + x.b * Real.sqrt 2 = (y.a : ℝ) + y.b * Real.sqrt 2 := h
  by_cases hb : x.b = y.b
  · have hxa : (x.a : ℝ) = y.a := by
      rw [hb] at h0
      linarith
    have ha : x.a = y.a := by exact_mod_cast hxa
    cases x; cases y
    simp_all
  · exfalso
    have hbq : ((x.b - y.b : ℚ) : ℝ) ≠ 0 := by
      intro hh
      apply hb
      have : (x.b - y.b : ℚ) = 0 := by exact_mod_cast hh
      linarith
    have hbq2 : ((x.b : ℝ) - y.b) ≠ 0 := by
      intro hh
      exact hbq (by push_cast; linarith)
    have hs : Real.sqrt 2 = (((y.a - x.a) / (x.b - y.b) : ℚ) : ℝ) := by
      push_cast
      rw [eq_div_iff hbq2]
      linear_combination h0
    exact irrational_sqrt_two.ne_rat _ hs

theorem toReal_zero : toReal 0 = 0 := by
  show ((0 : ℚ) : ℝ) + ((0 : ℚ) : ℝ) * Real.sqrt 2 = 0
  norm_num

theorem toReal_one : toReal 1 = 1 := by
  show ((1 : ℚ) : ℝ) + ((0 : ℚ) : ℝ) * Real.sqrt 2 = 1
  norm_num

theorem toReal_add (x y : Q2) : toReal (x + y) = toReal x + toReal y := by
  show ((x.a + y.a : ℚ) : ℝ) + ((x.b + y.b : ℚ) : ℝ) * Real.sqrt 2 = _
  push_cast
  unfold toReal
  ring

theorem toReal_neg (x : Q2) : toReal (-x) = -toReal x := by
  show ((-x.a : ℚ) : ℝ) + ((-x.b : ℚ) : ℝ) * Real.sqrt 2 = _
  push_cast
  unfold toReal
  ring

theorem toReal_sub (x y : Q2) : toReal (x - y) = toReal x - toReal y := by
  show ((x.a - y.a : ℚ) : ℝ) + ((x.b - y.b : ℚ) : ℝ) * Real.sqrt 2 = _
  push_cast
  unfold toReal
  ring

theorem toReal_mul (x y : Q2) : toReal (x * y) = toReal x * toReal y := by
  show ((x.a * y.a + 2 * x.b * y.b : ℚ) : ℝ) +
      ((x.a * y.b + x.b * y.a : ℚ) : ℝ) * Real.sqrt 2 = _
  push_cast
  unfold toReal
  linear_combination (-((x.b : ℝ) * y.b)) * sqrt_two_sq

theorem toReal_ne_zero (x : Q2) (hx : x ≠ 0) : toReal x ≠ 0 := by
  intro h
  exact hx (toReal_injective (by rw [h, toReal_zero]))

theorem norm_ne_zero (x : Q2) (hx : x ≠ 0) : x.a ^ 2 - 2 * x.b ^ 2 ≠ 0 := by
  intro h
  by_cases hb : x.b = 0
  · have ha : x.a ^ 2 = 0 := by rw [hb] at h; nlinarith
    have ha0 : x.a = 0 := pow_eq_zero_iff (two_ne_zero) |>.mp ha
    apply hx
    have hx0 : x = ⟨0, 0⟩ := by
      cases x
      simp_all
    rw [hx0]
    rfl
  · have h2 : ((x.a / x.b) ^ 2 : ℚ) = 2 := by
      field_simp
      linarith
    have h2R : ((|x.a / x.b| : ℚ) : ℝ) ^ 2 = 2 := by
      push_cast
      rw [sq_abs]
      exact_mod_cast h2
    have hs : Real.sqrt 2 = ((|x.a / x.b| : ℚ) : ℝ) := by
      rw [← h2R, Real.sqrt_sq_eq_abs]
      push_cast
      rw [abs_abs]
    exact irrational_sqrt_two.ne_rat _ hs

theorem inv_mul_self (x : Q2) (hx : x ≠ 0) : x⁻¹ * x = 1 := by
  have hd : x.a ^ 2 - 2 * x.b ^ 2 ≠ 0 := norm_ne_zero x hx
  have hcomp : x⁻¹ * x =
      ⟨x.a / (x.a ^ 2 - 2 * x.b ^ 2) * x.a +
        2 * (-x.b / (x.a ^ 2 - 2 * x.b ^ 2)) * x.b,
       x.a / (x.a ^ 2 - 2 * x.b ^ 2) * x.b +
        -x.b / (x.a ^ 2 - 2 * x.b ^ 2) * x.a⟩ := rfl
  have e1 : x.a / (x.a ^ 2 - 2 * x.b ^ 2) * x.a +
      2 * (-x.b / (x.a ^ 2 - 2 * x.b ^ 2)) * x.b = 1 := by
    field_simp
    ring
  have e2 : x.a / (x.a ^ 2 - 2 * x.b ^ 2) * x.b +
      -x.b / (x.a ^ 2 - 2 * x.b ^ 2) * x.a = 0 := by
    field_simp
    ring
  rw [hcomp, e1, e2]
  rfl

attribute [local semireducible] Rat.add Rat.mul Rat.sub Rat.inv Rat.ofScientific in
theorem toReal_inv (x : Q2) : toReal x⁻¹ = (toReal x)⁻¹ := by
  by_cases hx : x = 0
  · subst hx
    have h0 : (0 : Q2)⁻¹ = 0 := by decide
    rw [h0, toReal_zero]
    simp
  · have ht : toReal x ≠ 0 := toReal_ne_zero x hx
    have h1 : toReal x⁻¹ * toReal x = 1 := by
      rw [← toReal_mul, inv_mul_self x hx, toReal_one]
    rw [inv_eq_one_div, eq_div_iff ht]
    exact h1

theorem toReal_div (x y : Q2) : toReal (x / y) = toReal x / toReal y := by
  show toReal (x * y⁻¹) = _
  rw [toReal_mul, toReal_inv, div_eq_mul_inv]

theorem toReal_nsmul (n : ℕ) (x : Q2) : toReal (n • x) = n • toReal x := by
  show toReal ⟨n • x.a, n • x.b⟩ = _
  simp only [toReal, nsmul_eq_mul]
  push_cast
  ring

theorem toReal_zsmul (n : ℤ) (x : Q2) : toReal (n • x) = n • toReal x := by
  show toReal ⟨n • x.a, n • x.b⟩ = _
  simp only [toReal, zsmul_eq_mul]
  push_cast
  ring

theorem toReal_qsmul (q : ℚ) (x : Q2) : toReal (q • x) = q • toReal x := by
  show toReal ⟨q • x.a, q • x.b⟩ = _
  simp only [toReal, Rat.smul_def, smul_eq_mul]
  push_cast
  ring

theorem toReal_nnqsmul (q : ℚ≥0) (x : Q2) : toReal (q • x) = q • toReal x := by
  show toReal ⟨q • x.a, q • x.b⟩ = _
  simp only [toReal, NNRat.smul_def, smul_eq_mul]
  push_cast
  ring

theorem toReal_npow (x : Q2) (n : ℕ) : toReal (x ^ n) = toReal x ^ n := by
  induction n with
  | zero => simpa using toReal_one
  | succ k ih =>
    have : x ^ (k + 1) = x ^ k * x := rfl
    rw [this, toReal_mul, ih, pow_succ]

theorem toReal_zpow (x : Q2) (n : ℤ) : toReal (x ^ n) = toReal x ^ n := by
  cases n with
  | ofNat k =>
    have : x ^ (Int.ofNat k) = x ^ k := rfl
    rw [this, toReal_npow]
    simp
  | negSucc k =>
    have : x ^ (Int.negSucc k) = (x ^ (k + 1))⁻¹ := rfl
    rw [this, toReal_inv, toReal_npow]
    simp [zpow_negSucc]

theorem toReal_natCast (n : ℕ) : toReal (n : Q2) = n := by
  show toReal ⟨(n : ℚ), 0⟩ = _
  simp [toReal]

theorem toReal_intCast (n : ℤ) : toReal (n : Q2) = n := by
  show toReal ⟨(n : ℚ), 0⟩ = _
  simp [toReal]

theorem toReal_ratCast (q : ℚ) : toReal (q : Q2) = q := by
  show toReal ⟨q, 0⟩ = _
  simp [toReal]

theorem toReal_nnratCast (q : ℚ≥0) : toReal (q : Q2) = q := by
  show toReal ⟨(q : ℚ), 0⟩ = _
  simp [toReal]

instance field : Field Q2 :=
  toReal_injective.field toReal toReal_zero toReal_one toReal_add toReal_mul
    toReal_neg toReal_sub toReal_inv toReal_div toReal_nsmul toReal_zsmul
    toReal_nnqsmul toReal_qsmul toReal_npow toReal_zpow toReal_natCast
    toReal_intCast toReal_nnratCast toReal_ratCast

/-- Decides `0 < a + b·√2` by exact rational arithmetic. -/
def posB (x : Q2) : Bool :=
  if 0 < x.b then decide (0 ≤ x.a) || decide (x.a ^ 2 < 2 * x.b ^ 2)
  else if x.b = 0 then decide (0 < x.a)
  else decide (0 < x.a) && decide (2 * x.b ^ 2 < x.a ^ 2)

theorem posB_iff (x : Q2) : posB x = true ↔ 0 < toReal x := by
  have hs2 : (0 : ℝ) < Real.sqrt 2 := Real.sqrt_pos.mpr (by norm_num)
  have htR : toReal x = (x.a : ℝ) + (x.b : ℝ) * Real.sqrt 2 := rfl
  rcases lt_trichotomy 0 x.b with hb | hb | hb
  · have hbR : (0 : ℝ) < x.b := by exact_mod_cast hb
    rw [posB, if_pos hb, htR]
    simp only [Bool.or_eq_true, decide_eq_true_eq]
    constructor
    · rintro (h | h)
      · have haR : (0 : ℝ) ≤ x.a := by exact_mod_cast h
        nlinarith
      · have hsq : ((x.a : ℝ)) ^ 2 < 2 * (x.b : ℝ) ^ 2 := by exact_mod_cast h
        have k1 : ((x.a : ℝ)) ^ 2 < ((x.b : ℝ) * Real.sqrt 2) ^ 2 := by
          nlinarith [sqrt_two_sq]
        have k0 : (0 : ℝ) < (x.b : ℝ) * Real.sqrt 2 := mul_pos hbR hs2
        have k2 : |(x.a : ℝ)| < (x.b : ℝ) * Real.sqrt 2 := by
          by_contra hcon
          push_neg at hcon
          have hle : ((x.b : ℝ) * Real.sqrt 2) ^ 2 ≤ |(x.a : ℝ)| ^ 2 :=
            pow_le_pow_left₀ (le_of_lt k0) hcon 2
          rw [sq_abs] at hle
          linarith
        have := neg_abs_le ((x.a : ℝ))
        linarith
    · intro h
      rcases le_or_lt 0 x.a with ha | ha
      · exact Or.inl ha
      · refine Or.inr ?_
        have haR : (x.a : ℝ) < 0 := by exact_mod_cast ha
        have hsq : ((x.a : ℝ)) ^ 2 < 2 * (x.b : ℝ) ^ 2 := by
          nlinarith [sqrt_two_sq]
        exact_mod_cast hsq
  · rw [posB, if_neg (by rw [← hb]; exact lt_irrefl 0), if_pos hb.symm, htR, ← hb]
    simp only [decide_eq_true_eq]
    push_cast
    constructor
    · intro h
      have : (0 : ℝ) < x.a := by exact_mod_cast h
      linarith
    · intro h
      have : (0 : ℝ) < x.a := by linarith
      exact_mod_cast this
  · have hbR : (x.b : ℝ) < 0 := by exact_mod_cast hb
    rw [posB, if_neg (not_lt.mpr hb.le), if_neg hb.ne, htR]
    simp only [Bool.and_eq_true, decide_eq_true_eq]
    constructor
    · rintro ⟨h1, h2⟩
      have h1R : (0 : ℝ) < x.a := by exact_mod_cast h1
      have h2R : 2 * ((x.b : ℝ)) ^ 2 < (x.a : ℝ) ^ 2 := by exact_mod_cast h2
      have hneg : (x.b : ℝ) * Real.sqrt 2 < 0 := mul_neg_of_neg_of_pos hbR hs2
      have k1 : ((x.b : ℝ) * Real.sqrt 2) ^ 2 < (x.a : ℝ) ^ 2 := by
        nlinarith [sqrt_two_sq]
      have k2 : -((x.b : ℝ) * Real.sqrt 2) < x.a := by
        by_contra hcon
        push_neg at hcon
        have hle : (x.a : ℝ) ^ 2 ≤ (-((x.b : ℝ) * Real.sqrt 2)) ^ 2 :=
          pow_le_pow_left₀ (le_of_lt h1R) hcon 2
        rw [neg_pow] at hle
        nlinarith
      linarith
    · intro h
      have hneg : (x.b : ℝ) * Real.sqrt 2 < 0 := mul_neg_of_neg_of_pos hbR hs2
      have h1R : (0 : ℝ) < x.a := by linarith
      have k1 : (0 : ℝ) < (x.a : ℝ) + x.b * Real.sqrt 2 := h
      have k2 : (0 : ℝ) < (x.a : ℝ) - x.b * Real.sqrt 2 := by linarith
      have h2R : 2 * ((x.b : ℝ)) ^ 2 < (x.a : ℝ) ^ 2 := by
        nlinarith [mul_pos k1 k2, sqrt_two_sq]
      constructor
      · exact_mod_cast h1R
      · exact_mod_cast h2R

instance : LT Q2 := ⟨fun x y => posB (y - x) = true⟩

instance : LE Q2 := ⟨fun x y => posB (x - y) = false⟩

theorem lt_iff (x y : Q2) : x < y ↔ toReal x < toReal y := by
  show posB (y - x) = true ↔ _
  rw [posB_iff, toReal_sub]
  constructor <;> intro h <;> linarith

theorem le_iff (x y : Q2) : x ≤ y ↔ toReal x ≤ toReal y := by
  show posB (x - y) = false ↔ _
  rw [← Bool.not_eq_true, not_iff_comm, posB_iff, toReal_sub]
  push_neg
  constructor <;> intro h <;> linarith

instance linearOrder : LinearOrder Q2 where
  le := (· ≤ ·)
  lt := (· < ·)
  le_refl x := by rw [le_iff]
  le_trans a b c := by
    rw [le_iff, le_iff, le_iff]
    exact le_trans
  le_antisymm a b h1 h2 := by
    rw [le_iff] at h1 h2
    exact toReal_injective (le_antisymm h1 h2)
  le_total a b := by
    rw [le_iff, le_iff]
    exact le_total _ _
  lt_iff_le_not_le a b := by
    rw [lt_iff, le_iff, le_iff]
    exact lt_iff_le_not_le
  decidableLE := fun a b => inferInstanceAs (Decidable (posB (a - b) = false))
  decidableEq := inferInstance
  decidableLT := fun a b => inferInstanceAs (Decidable (posB (b - a) = true))

instance : LinearOrderedField Q2 where
  __ := Q2.field
  __ := Q2.linearOrder
  add_le_add_left a b h c := by
    rw [le_iff] at h ⊢
    rw [toReal_add, toReal_add]
    linarith
  zero_le_one := by
    rw [le_iff, toReal_zero, toReal_one]
    norm_num
  mul_pos a b ha hb := by
    rw [lt_iff, toReal_zero] at ha hb ⊢
    rw [toReal_mul]
    exact mul_pos ha hb

end Q2

/-- Shorthand for rational elements of `ℚ(√2)`. -/
def qq (q : ℚ) : Q2 := ⟨q, 0⟩

/-- The element `√2` of `ℚ(√2)`. -/
def rt2 : Q2 := ⟨0, 1⟩

/-!
Concrete `FloatOps` instances.  The Rust function is generic over any type
implementing the `Float` trait; an instance of `FloatOps` is therefore part of
a concrete input.  For runs whose control flow never reaches the
transcendental operations at other arguments, it suffices that the instance
agree with the IEEE operations at the arguments actually reached.
-/

/-- A `FloatOps ℚ` instance for inputs whose geometry stays rational and whose
corners are all axis-aligned: angles are measured in units of `π/4` (so
`pi := 4`), `atan2` tabulates the four axis directions in those units, and
`epsilon` is the `f64` machine epsilon `2⁻⁵²`.  `cos`/`sin` are never reached
on the runs this instance is used for. -/
def axisOps : FloatOps ℚ where
  epsilon := 1 / 2 ^ 52
  pi := 4
  sqrt := fun x => if x = 0 then 0 else if x = 1 then 1 else if x = 4 then 2 else 37
  atan2 := fun y x =>
    if y = 0 ∧ x = 1 then 0
    else if y = 1 ∧ x = 0 then 2
    else if y = 0 ∧ x = -1 then 4
    else if y = -1 ∧ x = 0 then -2
    else 99
  cos := fun _ => 0
  sin := fun _ => 0
  ceilToNat := fun q => (Int.ceil q).toNat

/-- A `FloatOps Q2` instance faithful to `f64` on the runs it is used for
(the 45°-triangle scenario): angles in units of `π/4` (`pi := 4`), `atan2`
tabulating the three normal directions reached — `atan2 (-1) 0 = -π/2 ↦ -2`,
`atan2 0 1 = 0 ↦ 0`, `atan2 (√2/2) (-√2/2) = 3π/4 ↦ 3` — `sqrt` tabulating
the squared edge lengths reached (`1 ↦ 1`, `2 ↦ √2`), and `epsilon = 2⁻⁵²`.
`cos`, `sin` and `ceilToNat` are never reached on those runs. -/
def q2Ops : FloatOps Q2 where
  epsilon := qq (1 / 2 ^ 52)
  pi := qq 4
  sqrt := fun x => if x = qq 1 then qq 1 else if x = qq 2 then rt2 else qq 0
  atan2 := fun y x =>
    if y = qq (-1) ∧ x = qq 0 then qq (-2)
    else if y = qq 0 ∧ x = qq 1 then qq 0
    else if y = ⟨0, 1 / 2⟩ ∧ x = ⟨0, -1 / 2⟩ then qq 3
    else qq 99
  cos := fun _ => qq 0
  sin := fun _ => qq 0
  ceilToNat := fun x => (Int.ceil x.a).toNat

/-- The closed triangle ring of the crate's `triangle_contract` test. -/
def triangleRing : List (Coordinate Q2) :=
  [⟨qq 0, qq 0⟩, ⟨qq 1, qq 0⟩, ⟨qq 1, qq 1⟩, ⟨qq 0, qq 0⟩]

/-- CLAIM C7: for the empty input ring, with any offset and any arc
resolution (and any numeric instance), `offset_polygon` returns success with a
one-element list containing a single empty ring. -/
theorem empty_ring_gives_singleton_empty [LinearOrderedField N] (ops : FloatOps N)
    (offset arcdetail : N) :
    offset_polygon ops [] offset arcdetail = .ok [[]] := rfl

/-- CLAIM C10: on every non-empty ring all of whose consecutive points are
closer than machine epsilon (as measured by the code:
`sqrt(dx² + dy²) < epsilon`), every edge is dropped, the raw boundary stays
empty, and `offset_polygon` indexes the empty boundary at position 0
(`connected[0]`), i.e. panics, modelled as `indexOutOfBounds`, instead of
returning a value. -/
theorem degenerate_ring_panics [LinearOrderedField N] (ops : FloatOps N)
    (polygon : List (Coordinate N)) (offset arcdetail : N)
    (hne : polygon ≠ [])
    (hclose : ∀ idx, idx < polygon.length - 1 →
      ops.sqrt (((polygon.getD idx ⟨0, 0⟩).x - (polygon.getD (idx + 1) ⟨0, 0⟩).x) *
          ((polygon.getD idx ⟨0, 0⟩).x - (polygon.getD (idx + 1) ⟨0, 0⟩).x) +
        ((polygon.getD idx ⟨0, 0⟩).y - (polygon.getD (idx + 1) ⟨0, 0⟩).y) *
          ((polygon.getD idx ⟨0, 0⟩).y - (polygon.getD (idx + 1) ⟨0, 0⟩).y)) <
        ops.epsilon) :
    buildSegments ops offset polygon = [] ∧
    buildConnected ops offset (((2 : ℚ) : N) * ops.pi / arcdetail)
      (buildSegments ops offset polygon) = [] ∧
    offset_polygon ops polygon offset arcdetail = .indexOutOfBounds := by
  have hlines : buildSegments ops offset polygon = [] := by
    unfold buildSegments
    rw [List.filterMap_eq_nil_iff]
    intro idx hidx
    rw [List.mem_range] at hidx
    simp only
    rw [if_pos (hclose idx hidx)]
  have hconn : buildConnected ops offset (((2 : ℚ) : N) * ops.pi / arcdetail)
      (buildSegments ops offset polygon) = [] := by
    rw [hlines]
    rfl
  refine ⟨hlines, hconn, ?_⟩
  unfold offset_polygon
  rw [if_neg (by simpa using hne)]
  simp only [hconn]

attribute [local semireducible] Rat.add Rat.mul Rat.sub Rat.inv Rat.ofScientific in
/-- Witness for C10: the two-point ring of repeated identical points panics. -/
theorem degenerate_ring_panics_witness :
    offset_polygon axisOps [⟨0, 0⟩, ⟨0, 0⟩] 1 10 = .indexOutOfBounds :=
  (degenerate_ring_panics axisOps [⟨0, 0⟩, ⟨0, 0⟩] 1 10 (by simp)
    (by
      intro idx hidx
      have h0 : idx = 0 := by
        simp only [List.length_cons, List.length_nil] at hidx
        omega
      subst h0
      decide)).2.2

/-- CLAIM C1 (amended): at a join whose wrapped angle is below `π`, the shared
original vertex is appended as a miter join when the angle exceeds machine
epsilon, while the just-appended duplicated point is popped when the angle is
at most epsilon (the code pops at `angle = epsilon` too — `angle > epsilon`
gates the miter); at `angle = π`, no extra point is emitted. -/
theorem join_convex_cases [LinearOrderedField N] (ops : FloatOps N)
    (offset arcstep : N) (line0 line1 : Segment N)
    (connected : List (Coordinate N)) :
    (joinAngle ops offset line0 line1 < ops.pi →
      ((ops.epsilon < joinAngle ops offset line0 line1 →
        joinStep ops offset arcstep line0 line1 connected =
          connected ++ [line0.p0, line0.p1, line0.p1_orig]) ∧
       (joinAngle ops offset line0 line1 ≤ ops.epsilon →
        joinStep ops offset arcstep line0 line1 connected =
          connected ++ [line0.p0]))) ∧
    (joinAngle ops offset line0 line1 = ops.pi →
      joinStep ops offset arcstep line0 line1 connected =
        connected ++ [line0.p0, line0.p1]) := by
  constructor
  · intro hlt
    constructor
    · intro hgt
      simp only [joinStep]
      rw [if_pos hlt, if_pos hgt]
      simp
    · intro hle
      simp only [joinStep]
      rw [if_pos hlt, if_neg (not_lt.mpr hle)]
      rw [show connected ++ [line0.p0, line0.p1] =
        (connected ++ [line0.p0]) ++ [line0.p1] by simp]
      rw [List.dropLast_concat]
  · intro heq
    simp only [joinStep]
    rw [if_neg (by rw [heq]; exact lt_irrefl _),
      if_neg (by rw [heq]; exact lt_irrefl _)]

/-- A `FloatOps ℚ` instance (a legal instantiation of the generic Rust
function, which accepts any `Float` implementation) whose `atan2` values make
the wrapped join angle of the probe segments below come out exactly equal to
machine epsilon. -/
def probeOps : FloatOps ℚ where
  epsilon := 1 / 2 ^ 52
  pi := 4
  sqrt := fun x => if x = 0 then 0 else 1
  atan2 := fun y x => if y = 1 ∧ x = 0 then 1 / 2 ^ 52 else 0
  cos := fun _ => 0
  sin := fun _ => 0
  ceilToNat := fun q => (Int.ceil q).toNat

/-- First probe segment: normal `(0, 1)`. -/
def probeLine0 : Segment ℚ := ⟨⟨0, 0⟩, ⟨1, 1⟩, ⟨2, 2⟩, ⟨0, 1⟩⟩

/-- Second probe segment: normal `(1, 0)`. -/
def probeLine1 : Segment ℚ := ⟨⟨3, 3⟩, ⟨4, 4⟩, ⟨5, 5⟩, ⟨1, 0⟩⟩

attribute [local semireducible] Rat.add Rat.mul Rat.sub Rat.inv Rat.ofScientific in
/-- Counterexample to CLAIM C1 as stated: at a join whose wrapped angle equals
machine epsilon exactly — so the angle is below `π` and is NOT less than
epsilon, which the claim says yields a miter join — the code pops the
duplicated point instead of appending the shared original vertex. -/
theorem join_convex_cases_counterexample :
    joinAngle probeOps 1 probeLine0 probeLine1 < probeOps.pi ∧
    ¬ joinAngle probeOps 1 probeLine0 probeLine1 < probeOps.epsilon ∧
    joinStep probeOps 1 1 probeLine0 probeLine1 [] = [probeLine0.p0] ∧
    joinStep probeOps 1 1 probeLine0 probeLine1 [] ≠
      [probeLine0.p0, probeLine0.p1, probeLine0.p1_orig] := by
  decide

/-- Witness segment for the miter case: normal `(0, -1)`. -/
def witLine0 : Segment ℚ := ⟨⟨0, 1⟩, ⟨1, 1⟩, ⟨1, 0⟩, ⟨0, -1⟩⟩

/-- Witness segment for the miter case: normal `(1, 0)`. -/
def witLine1 : Segment ℚ := ⟨⟨0, 0⟩, ⟨0, 0⟩, ⟨0, 0⟩, ⟨1, 0⟩⟩

attribute [local semireducible] Rat.add Rat.mul Rat.sub Rat.inv Rat.ofScientific in
/-- Witness for (amended) C1: a concrete convex corner (wrapped angle `π/2`)
receives a miter join. -/
theorem join_convex_cases_witness :
    joinAngle axisOps (-1) witLine0 witLine1 < axisOps.pi ∧
    axisOps.epsilon < joinAngle axisOps (-1) witLine0 witLine1 ∧
    joinStep axisOps (-1) 1 witLine0 witLine1 [] =
      [] ++ [witLine0.p0, witLine0.p1, witLine0.p1_orig] :=
  ⟨by decide, by decide,
    ((join_convex_cases axisOps (-1) 1 witLine0 witLine1 []).1
      (by decide)).1 (by decide)⟩

/-- CLAIM C2: at a join whose wrapped angle exceeds `π`, a circular arc is
emitted: the appended samples are exactly `arcSamples` with
`m = ceil(Δangle / arcstep)` (where `Δangle` steps from the incoming normal's
angle towards the outgoing normal's angle, unwrapped across `0/2π` in the
direction implied by the sign of the offset, and `arcstep = 2π/k`); the list
has `m - 1` interior samples (truncated subtraction), the `k`-th sample sits
at angle `startangle ∓ (k+1)·arcstep`, and — whenever `cos/sin` satisfy the
Pythagorean identity, as the real functions do — every sample lies at squared
distance `offset²` (i.e. distance `|offset|`) from the shared original
vertex. -/
theorem join_concave_arc [LinearOrderedField N] (ops : FloatOps N)
    (offset arcstep arcdetail : N) (line0 line1 : Segment N)
    (connected : List (Coordinate N))
    (hpyth : ∀ θ : N, ops.cos θ ^ 2 + ops.sin θ ^ 2 = 1)
    (harc : arcstep = ((2 : ℚ) : N) * ops.pi / arcdetail)
    (hgt : ops.pi < joinAngle ops offset line0 line1) :
    (offset < 0 →
      joinStep ops offset arcstep line0 line1 connected =
        connected ++ [line0.p0, line0.p1] ++
          arcSamples ops offset arcstep line0.p1_orig
            (ops.atan2 line0.normal.y line0.normal.x) true
            (ops.ceilToNat ((ops.atan2 line0.normal.y line0.normal.x -
              arcEndNeg ops (ops.atan2 line0.normal.y line0.normal.x)
                (ops.atan2 line1.normal.y line1.normal.x)) / arcstep))) ∧
    (¬ offset < 0 →
      joinStep ops offset arcstep line0 line1 connected =
        connected ++ [line0.p0, line0.p1] ++
          arcSamples ops offset arcstep line0.p1_orig
            (ops.atan2 line0.normal.y line0.normal.x) false
            (ops.ceilToNat ((arcEndPos ops (ops.atan2 line0.normal.y line0.normal.x)
                (ops.atan2 line1.normal.y line1.normal.x) -
              ops.atan2 line0.normal.y line0.normal.x) / arcstep))) ∧
    (∀ (center : Coordinate N) (startangle : N) (negDir : Bool) (m : ℕ),
      (arcSamples ops offset arcstep center startangle negDir m).length = m - 1 ∧
      (∀ k, k < m - 1 →
        (arcSamples ops offset arcstep center startangle negDir m).getD k ⟨0, 0⟩ =
          ⟨center.x + offset * ops.cos (if negDir then startangle - ((k + 1 : ℕ) : N) * arcstep
              else startangle + ((k + 1 : ℕ) : N) * arcstep),
           center.y + offset * ops.sin (if negDir then startangle - ((k + 1 : ℕ) : N) * arcstep
              else startangle + ((k + 1 : ℕ) : N) * arcstep)⟩) ∧
      (∀ p ∈ arcSamples ops offset arcstep center startangle negDir m,
        (p.x - center.x) ^ 2 + (p.y - center.y) ^ 2 = offset ^ 2)) := by
  refine ⟨?_, ?_, ?_⟩
  · intro hneg
    simp only [joinStep]
    rw [if_neg (lt_asymm hgt), if_pos hgt, if_pos hneg]
  · intro hneg
    simp only [joinStep]
    rw [if_neg (lt_asymm hgt), if_pos hgt, if_neg hneg]
  · intro center startangle negDir m
    refine ⟨?_, ?_, ?_⟩
    · unfold arcSamples
      rw [List.length_map, List.length_range']
    · intro k hk
      have hk2 : k < (arcSamples ops offset arcstep center startangle negDir m).length := by
        unfold arcSamples
        rw [List.length_map, List.length_range']
        exact hk
      rw [List.getD_eq_getElem _ _ hk2]
      unfold arcSamples
      simp only [List.getElem_map, List.getElem_range']
      have he : (1 + 1 * k : ℕ) = (k + 1 : ℕ) := by omega
      congr 2 <;> rw [he]
    · intro p hp
      unfold arcSamples at hp
      rw [List.mem_map] at hp
      obtain ⟨step, _, hstep⟩ := hp
      rw [← hstep]
      simp only
      linear_combination (offset ^ 2) *
        hpyth (if negDir then startangle - (step : N) * arcstep
          else startangle + (step : N) * arcstep)

/-- A `FloatOps ℚ` instance whose `cos`/`sin` satisfy the exact Pythagorean
identity (the rational parametrisation of the circle), with angles in units of
`π/4` (`pi := 4`) and `atan2` tabulating the two normal directions reached. -/
def circleOps : FloatOps ℚ where
  epsilon := 1 / 2 ^ 52
  pi := 4
  sqrt := fun x => if x = 0 then 0 else 1
  atan2 := fun y x => if y = 0 ∧ x = 1 then 0 else if y = 1 ∧ x = 0 then 2 else 99
  cos := fun θ => (1 - θ ^ 2) / (1 + θ ^ 2)
  sin := fun θ => 2 * θ / (1 + θ ^ 2)
  ceilToNat := fun q => (Int.ceil q).toNat

theorem circleOps_pyth : ∀ θ : ℚ, circleOps.cos θ ^ 2 + circleOps.sin θ ^ 2 = 1 := by
  intro θ
  show ((1 - θ ^ 2) / (1 + θ ^ 2)) ^ 2 + (2 * θ / (1 + θ ^ 2)) ^ 2 = 1
  have h : (1 + θ ^ 2 : ℚ) ≠ 0 := by positivity
  field_simp
  ring

/-- Witness segment for the arc case: normal `(1, 0)`. -/
def arcLine0 : Segment ℚ := ⟨⟨2, 0⟩, ⟨2, 3⟩, ⟨3, 3⟩, ⟨1, 0⟩⟩

/-- Witness segment for the arc case: normal `(0, 1)`. -/
def arcLine1 : Segment ℚ := ⟨⟨0, 0⟩, ⟨0, 0⟩, ⟨0, 0⟩, ⟨0, 1⟩⟩

attribute [local semireducible] Rat.add Rat.mul Rat.sub Rat.inv Rat.ofScientific in
/-- Witness for C2: a concrete concave corner (wrapped angle `3π/2`, positive
offset, `k = 8`, `arcstep = π/4`) produces its arc samples, one interior
sample, each at squared distance `offset²` from the shared vertex. -/
theorem join_concave_arc_witness :
    joinStep circleOps 1 1 arcLine0 arcLine1 [] =
      [] ++ [arcLine0.p0, arcLine0.p1] ++
        arcSamples circleOps 1 1 arcLine0.p1_orig
          (circleOps.atan2 arcLine0.normal.y arcLine0.normal.x) false
          (circleOps.ceilToNat ((arcEndPos circleOps
              (circleOps.atan2 arcLine0.normal.y arcLine0.normal.x)
              (circleOps.atan2 arcLine1.normal.y arcLine1.normal.x) -
            circleOps.atan2 arcLine0.normal.y arcLine0.normal.x) / 1)) ∧
    (arcSamples circleOps 1 1 arcLine0.p1_orig 0 false 2).length = 2 - 1 ∧
    ∀ p ∈ arcSamples circleOps 1 1 arcLine0.p1_orig 0 false 2,
      (p.x - arcLine0.p1_orig.x) ^ 2 + (p.y - arcLine0.p1_orig.y) ^ 2 = 1 ^ 2 := by
  have h := join_concave_arc circleOps 1 1 8 arcLine0 arcLine1 [] circleOps_pyth
    (by decide) (by decide)
  exact ⟨h.2.1 (by norm_num), (h.2.2 arcLine0.p1_orig 0 false 2).1,
    (h.2.2 arcLine0.p1_orig 0 false 2).2.2⟩

/-!
Characterisation of `intersect` (claim C4).  The per-edge quantities `r`,
`r × s`, `u` and `t` of the loop body are named, and a reference edge is a
valid candidate when it passes all three acceptance tests of the code with the
current-best `u` ignored; the theorem shows the fold returns the minimal-`u`
valid candidate.
-/

/-- The query-segment vector `s = end - start` of `intersect`. -/
def sVec [LinearOrderedField N] (start endp : Coordinate N) : Coordinate N :=
  ⟨endp.x - start.x, endp.y - start.y⟩

/-- The reference-edge vector `r = p1 - p0` at edge `idx`. -/
def edgeVec [LinearOrderedField N] (line : List (Coordinate N)) (idx : ℕ) :
    Coordinate N :=
  ⟨(line.getD (idx + 1) ⟨0, 0⟩).x - (line.getD idx ⟨0, 0⟩).x,
   (line.getD (idx + 1) ⟨0, 0⟩).y - (line.getD idx ⟨0, 0⟩).y⟩

/-- The vector `q - p = start - p0` at edge `idx`. -/
def edgeQp [LinearOrderedField N] (start : Coordinate N)
    (line : List (Coordinate N)) (idx : ℕ) : Coordinate N :=
  ⟨start.x - (line.getD idx ⟨0, 0⟩).x, start.y - (line.getD idx ⟨0, 0⟩).y⟩

/-- The cross product `r × s` at edge `idx`. -/
def edgeRxs [LinearOrderedField N] (s : Coordinate N)
    (line : List (Coordinate N)) (idx : ℕ) : N :=
  cross_product (edgeVec line idx) s

/-- The query parameter `u` at edge `idx`. -/
def edgeU [LinearOrderedField N] (start s : Coordinate N)
    (line : List (Coordinate N)) (idx : ℕ) : N :=
  cross_product (edgeQp start line idx) (edgeVec line idx) / edgeRxs s line idx

/-- The reference parameter `t` at edge `idx`. -/
def edgeT [LinearOrderedField N] (start s : Coordinate N)
    (line : List (Coordinate N)) (idx : ℕ) : N :=
  cross_product (edgeQp start line idx) s / edgeRxs s line idx

/-- The acceptance interval for `t`: `[0, 1]`, tightened to
`[0.00001, 0.999999]` when `exclude_points` is set (both interval bounds are
attainable: the code skips only on strict violations). -/
def tOK [LinearOrderedField N] (exclude_points : Bool) (t : N) : Prop :=
  if exclude_points then
    ((1 / 100000 : ℚ) : N) ≤ t ∧ t ≤ ((999999 / 1000000 : ℚ) : N)
  else 0 ≤ t ∧ t ≤ 1

/-- Edge `idx` is a valid candidate: not near-parallel
(`|r × s| ≥ epsilon`), `u ∈ [epsilon, 1]`, and `t` within the acceptance
interval. -/
def validCand [LinearOrderedField N] (ops : FloatOps N)
    (start s : Coordinate N) (line : List (Coordinate N))
    (exclude_points : Bool) (idx : ℕ) : Prop :=
  ops.epsilon ≤ |edgeRxs s line idx| ∧
  ops.epsilon ≤ edgeU start s line idx ∧ edgeU start s line idx ≤ 1 ∧
  tOK exclude_points (edgeT start s line idx)

/-- Invariant of the edge loop of `intersect` after scanning the edges in
`seen`. -/
def StInv [LinearOrderedField N] (ops : FloatOps N) (start s : Coordinate N)
    (line : List (Coordinate N)) (exclude_points : Bool)
    (seen : List ℕ) (st : IntersectState N) : Prop :=
  st.intersection_u ≤ 1 ∧
  (st.intersection_point = none →
    st.intersection_u = 1 ∧ st.intersection_t = none ∧
    st.intersection_index = none ∧
    ∀ idx ∈ seen, ¬ validCand ops start s line exclude_points idx) ∧
  (∀ pt, st.intersection_point = some pt →
    ∃ w, st.intersection_index = some w ∧ w ∈ seen ∧
      validCand ops start s line exclude_points w ∧
      st.intersection_u = edgeU start s line w ∧
      st.intersection_t = some (edgeT start s line w) ∧
      pt = ⟨start.x + st.intersection_u * s.x, start.y + st.intersection_u * s.y⟩ ∧
      ∀ idx ∈ seen, validCand ops start s line exclude_points idx →
        st.intersection_u ≤ edgeU start s line idx)

theorem intersectStep_inv [LinearOrderedField N] (ops : FloatOps N)
    (start s : Coordinate N) (line : List (Coordinate N))
    (exclude_points : Bool) (seen : List ℕ) (st : IntersectState N) (idx : ℕ)
    (h : StInv ops start s line exclude_points seen st) :
    StInv ops start s line exclude_points (seen ++ [idx])
      (intersectStep ops start s exclude_points line st idx) := by
  obtain ⟨hu1, hnone, hsome⟩ := h
  have hr : edgeVec line idx =
      ⟨(line.getD (idx + 1) ⟨0, 0⟩).x - (line.getD idx ⟨0, 0⟩).x,
       (line.getD (idx + 1) ⟨0, 0⟩).y - (line.getD idx ⟨0, 0⟩).y⟩ := rfl
  simp only [intersectStep]
  by_cases h1 : |cross_product (edgeVec line idx) s| < ops.epsilon
  · rw [if_pos (by exact h1)]
    have hnv : ¬ validCand ops start s line exclude_points idx := by
      intro hv
      exact absurd hv.1 (not_le.mpr h1)
    refine ⟨hu1, ?_, ?_⟩
    · intro hpt
      obtain ⟨a, b, c, d⟩ := hnone hpt
      refine ⟨a, b, c, ?_⟩
      intro j hj
      rcases List.mem_append.mp hj with hj | hj
      · exact d j hj
      · rw [List.mem_singleton.mp hj]
        exact hnv
    · intro pt hpt
      obtain ⟨w, hw⟩ := hsome pt hpt
      refine ⟨w, hw.1, List.mem_append_left _ hw.2.1, hw.2.2.1, hw.2.2.2.1,
        hw.2.2.2.2.1, hw.2.2.2.2.2.1, ?_⟩
      intro j hj hv
      rcases List.mem_append.mp hj with hj | hj
      · exact hw.2.2.2.2.2.2 j hj hv
      · rw [List.mem_singleton.mp hj] at hv
        exact absurd hv hnv
  · rw [if_neg (by exact h1)]
    by_cases h2 : cross_product (edgeQp start line idx) (edgeVec line idx) /
        cross_product (edgeVec line idx) s < ops.epsilon ∨
        cross_product (edgeQp start line idx) (edgeVec line idx) /
        cross_product (edgeVec line idx) s > st.intersection_u
    · rw [if_pos (by exact h2)]
      have hEU : edgeU start s line idx = cross_product (edgeQp start line idx)
          (edgeVec line idx) / cross_product (edgeVec line idx) s := rfl
      refine ⟨hu1, ?_, ?_⟩
      · intro hpt
        obtain ⟨a, b, c, d⟩ := hnone hpt
        refine ⟨a, b, c, ?_⟩
        intro j hj
        rcases List.mem_append.mp hj with hj | hj
        · exact d j hj
        · rw [List.mem_singleton.mp hj]
          intro hv
          rcases h2 with h2 | h2
          · exact absurd hv.2.1 (not_le.mpr (hEU ▸ h2))
          · rw [a] at h2
            exact absurd hv.2.2.1 (not_le.mpr (hEU ▸ h2))
      · intro pt hpt
        obtain ⟨w, hw⟩ := hsome pt hpt
        refine ⟨w, hw.1, List.mem_append_left _ hw.2.1, hw.2.2.1, hw.2.2.2.1,
          hw.2.2.2.2.1, hw.2.2.2.2.2.1, ?_⟩
        intro j hj hv
        rcases List.mem_append.mp hj with hj | hj
        · exact hw.2.2.2.2.2.2 j hj hv
        · rw [List.mem_singleton.mp hj] at hv ⊢
          rcases h2 with h2 | h2
          · exact absurd hv.2.1 (not_le.mpr (hEU ▸ h2))
          · exact le_of_lt (hEU ▸ h2)
    · rw [if_neg (by exact h2)]
      push_neg at h2
      have hEU : edgeU start s line idx = cross_product (edgeQp start line idx)
          (edgeVec line idx) / cross_product (edgeVec line idx) s := rfl
      have hET : edgeT start s line idx = cross_product (edgeQp start line idx) s /
          cross_product (edgeVec line idx) s := rfl
      by_cases h3 : (exclude_points = false ∧
          (cross_product (edgeQp start line idx) s /
            cross_product (edgeVec line idx) s < 0 ∨
           cross_product (edgeQp start line idx) s /
            cross_product (edgeVec line idx) s > 1)) ∨
          (exclude_points = true ∧
          (cross_product (edgeQp start line idx) s /
            cross_product (edgeVec line idx) s < ((1 / 100000 : ℚ) : N) ∨
           cross_product (edgeQp start line idx) s /
            cross_product (edgeVec line idx) s > ((999999 / 1000000 : ℚ) : N)))

      · rw [if_pos (by exact h3)]
        have hnv : ¬ validCand ops start s line exclude_points idx := by
          intro hv
          have ht := hv.2.2.2
          rw [tOK] at ht
          cases exclude_points with
          | false =>
            rcases h3 with ⟨_, h3⟩ | ⟨h3, _⟩
            · rw [if_neg (by simp)] at ht
              rcases h3 with h3 | h3
              · exact absurd (hET ▸ ht.1) (not_le.mpr h3)
              · exact absurd (hET ▸ ht.2) (not_le.mpr h3)
            · exact absurd h3 (by simp)
          | true =>
            rcases h3 with ⟨h3, _⟩ | ⟨_, h3⟩
            · exact absurd h3 (by simp)
            · rw [if_pos (by simp)] at ht
              rcases h3 with h3 | h3
              · exact absurd (hET ▸ ht.1) (not_le.mpr h3)
              · exact absurd (hET ▸ ht.2) (not_le.mpr h3)
        refine ⟨hu1, ?_, ?_⟩
        · intro hpt
          obtain ⟨a, b, c, d⟩ := hnone hpt
          refine ⟨a, b, c, ?_⟩
          intro j hj
          rcases List.mem_append.mp hj with hj | hj
          · exact d j hj
          · rw [List.mem_singleton.mp hj]
            exact hnv
        · intro pt hpt
          obtain ⟨w, hw⟩ := hsome pt hpt
          refine ⟨w, hw.1, List.mem_append_left _ hw.2.1, hw.2.2.1, hw.2.2.2.1,
            hw.2.2.2.2.1, hw.2.2.2.2.2.1, ?_⟩
          intro j hj hv
          rcases List.mem_append.mp hj with hj | hj
          · exact hw.2.2.2.2.2.2 j hj hv
          · rw [List.mem_singleton.mp hj] at hv
            exact absurd hv hnv
      · rw [if_neg (by exact h3)]
        have hvalid : validCand ops start s line exclude_points idx := by
          refine ⟨not_lt.mp h1, hEU ▸ h2.1, hEU ▸ le_trans h2.2 hu1, ?_⟩
          rw [tOK]
          cases exclude_points with
          | false =>
            rw [if_neg (by simp)]
            push_neg at h3
            have h3f := h3.1 rfl
            exact ⟨hET ▸ h3f.1, hET ▸ h3f.2⟩
          | true =>
            rw [if_pos (by simp)]
            push_neg at h3
            have h3t := h3.2 rfl
            exact ⟨hET ▸ h3t.1, hET ▸ h3t.2⟩
        show StInv ops start s line exclude_points (seen ++ [idx])
          ⟨edgeU start s line idx, some (edgeT start s line idx),
           some ⟨start.x + edgeU start s line idx * s.x,
                 start.y + edgeU start s line idx * s.y⟩,
           some idx⟩
        refine ⟨hEU ▸ le_trans h2.2 hu1, ?_, ?_⟩
        · intro hpt
          simp at hpt
        · intro pt hpt
          simp only [Option.some.injEq] at hpt
          refine ⟨idx, rfl, List.mem_append_right _ (List.mem_singleton_self idx),
            hvalid, rfl, rfl, hpt.symm, ?_⟩
          intro j hj hv
          rcases List.mem_append.mp hj with hj | hj
          · rcases Option.eq_none_or_eq_some st.intersection_point with hcase | ⟨pt0, hcase⟩
            · have := (hnone hcase).2.2.2 j hj
              exact absurd hv this
            · obtain ⟨w, hw⟩ := hsome pt0 hcase
              have hmin := hw.2.2.2.2.2.2 j hj hv
              calc edgeU start s line idx ≤ st.intersection_u := hEU ▸ h2.2
                _ ≤ edgeU start s line j := hmin
          · rw [List.mem_singleton.mp hj]

/-- CLAIM C4 (amended): `intersect` returns `none` iff no reference edge is a
valid candidate (near-parallel edges are skipped; `u` is accepted in the
closed interval `[epsilon, 1]` — the code skips only `u < epsilon`, so
`u = epsilon` is accepted — and `t` in `[0, 1]`, tightened to the closed
interval `[0.00001, 0.999999]` under `excludePoints`); when it returns a
result, that result is a valid candidate realising the minimal accepted `u`,
with point `start + u·s`, its `t`, and the winning reference-edge index. -/
theorem intersect_characterization [LinearOrderedField N] (ops : FloatOps N)
    (start endp : Coordinate N) (line : List (Coordinate N))
    (exclude_points : Bool) :
    (intersect ops start endp line exclude_points = none ↔
      ∀ idx, idx < line.length - 1 →
        ¬ validCand ops start (sVec start endp) line exclude_points idx) ∧
    (∀ res, intersect ops start endp line exclude_points = some res →
      res.index < line.length - 1 ∧
      validCand ops start (sVec start endp) line exclude_points res.index ∧
      res.u = edgeU start (sVec start endp) line res.index ∧
      res.t = edgeT start (sVec start endp) line res.index ∧
      res.point = ⟨start.x + res.u * (sVec start endp).x,
        start.y + res.u * (sVec start endp).y⟩ ∧
      ∀ idx, idx < line.length - 1 →
        validCand ops start (sVec start endp) line exclude_points idx →
        res.u ≤ edgeU start (sVec start endp) line idx) := by
  have hfold : ∀ (idxs : List ℕ) (seen : List ℕ) (st : IntersectState N),
      StInv ops start (sVec start endp) line exclude_points seen st →
      StInv ops start (sVec start endp) line exclude_points (seen ++ idxs)
        (idxs.foldl (intersectStep ops start (sVec start endp) exclude_points line) st) := by
    intro idxs
    induction idxs with
    | nil => intro seen st h; simpa using h
    | cons a rest ih =>
      intro seen st h
      have h1 := intersectStep_inv ops start (sVec start endp) line exclude_points
        seen st a h
      have h2 := ih (seen ++ [a]) _ h1
      simpa [List.append_assoc] using h2
  have hinit : StInv ops start (sVec start endp) line exclude_points []
      ⟨(1 : N), none, none, none⟩ := by
    refine ⟨le_refl _, ?_, ?_⟩
    · intro _
      exact ⟨rfl, rfl, rfl, by simp⟩
    · intro pt hpt
      simp at hpt
  have hmain := hfold (List.range (line.length - 1)) [] _ hinit
  rw [List.nil_append] at hmain
  obtain ⟨hu1, hnone, hsome⟩ := hmain
  have hiE : intersect ops start endp line exclude_points =
      (match (List.foldl (intersectStep ops start (sVec start endp)
          exclude_points line) ⟨(1 : N), none, none, none⟩
          (List.range (line.length - 1))).intersection_point with
       | some point =>
          some ⟨(List.foldl (intersectStep ops start (sVec start endp)
              exclude_points line) ⟨(1 : N), none, none, none⟩
              (List.range (line.length - 1))).intersection_u,
            ((List.foldl (intersectStep ops start (sVec start endp)
              exclude_points line) ⟨(1 : N), none, none, none⟩
              (List.range (line.length - 1))).intersection_t).getD 0, point,
            ((List.foldl (intersectStep ops start (sVec start endp)
              exclude_points line) ⟨(1 : N), none, none, none⟩
              (List.range (line.length - 1))).intersection_index).getD 0⟩
       | none => none) := rfl
  constructor
  · constructor
    · intro hres idx hidx
      rcases hcase : (List.foldl (intersectStep ops start (sVec start endp)
          exclude_points line) ⟨(1 : N), none, none, none⟩
          (List.range (line.length - 1))).intersection_point with _ | pt
      · exact (hnone hcase).2.2.2 idx (List.mem_range.mpr hidx)
      · rw [hiE] at hres
        simp [hcase] at hres
    · intro hall
      rcases hcase : (List.foldl (intersectStep ops start (sVec start endp)
          exclude_points line) ⟨(1 : N), none, none, none⟩
          (List.range (line.length - 1))).intersection_point with _ | pt
      · rw [hiE]
        simp only [hcase]
      · obtain ⟨w, hw⟩ := hsome pt hcase
        exact absurd hw.2.2.1 (hall w (List.mem_range.mp hw.2.1))
  · intro res hres
    rcases hcase : (List.foldl (intersectStep ops start (sVec start endp)
        exclude_points line) ⟨(1 : N), none, none, none⟩
        (List.range (line.length - 1))).intersection_point with _ | pt
    · rw [hiE] at hres
      simp [hcase] at hres
    · rw [hiE] at hres
      simp only [hcase, Option.some.injEq] at hres
      obtain ⟨w, hw⟩ := hsome pt hcase
      obtain ⟨hwi, hwmem, hwvalid, hwu, hwt, hwpt, hwmin⟩ := hw
      have hu : res.u = edgeU start (sVec start endp) line w := by
        rw [← hres]
        exact hwu
      have ht : res.t = edgeT start (sVec start endp) line w := by
        rw [← hres]
        show ((List.foldl (intersectStep ops start (sVec start endp)
          exclude_points line) ⟨(1 : N), none, none, none⟩
          (List.range (line.length - 1))).intersection_t).getD 0 = _
        rw [hwt]
        rfl
      have hi : res.index = w := by
        rw [← hres]
        show ((List.foldl (intersectStep ops start (sVec start endp)
          exclude_points line) ⟨(1 : N), none, none, none⟩
          (List.range (line.length - 1))).intersection_index).getD 0 = _
        rw [hwi]
        rfl
      have hp : res.point = pt := by rw [← hres]
      refine ⟨?_, ?_, ?_, ?_, ?_, ?_⟩
      · rw [hi]
        exact List.mem_range.mp hwmem
      · rw [hi]
        exact hwvalid
      · rw [hu, hi]
      · rw [ht, hi]
      · rw [hp, hwpt, hwu, hu]
      · intro j hj hv
        rw [hu]
        have hmin := hwmin j (List.mem_range.mpr hj) hv
        rw [hwu] at hmin
        exact hmin

/-- Query start point hitting both acceptance boundaries exactly. -/
def c4start : Coordinate ℚ := ⟨1 / 100000, -(1 / 2 ^ 52)⟩

/-- Query end point hitting both acceptance boundaries exactly. -/
def c4end : Coordinate ℚ := ⟨1 / 100000, 1 - 1 / 2 ^ 52⟩

/-- Reference polyline: the single horizontal edge `(0,0) → (1,0)`. -/
def c4line : List (Coordinate ℚ) := [⟨0, 0⟩, ⟨1, 0⟩]

/-- The result `intersect` produces on the boundary probe. -/
def c4res : IntersectionResult ℚ := ⟨1 / 2 ^ 52, 1 / 100000, ⟨1 / 100000, 0⟩, 0⟩

attribute [local semireducible] Rat.add Rat.mul Rat.sub Rat.inv Rat.ofScientific in
/-- Counterexample to CLAIM C4 as stated: on a concrete input whose only
candidate has `u` exactly equal to machine epsilon and `t` exactly equal to
`0.00001` — both outside the open intervals `(epsilon, bestU]` and
`(0.00001, 0.999999)` that the claim requires for acceptance — `intersect`
nevertheless accepts it and returns a result (the code's tests are
`u < epsilon` and `t < 0.00001`, both non-strict on the boundary). -/
theorem intersect_characterization_counterexample :
    intersect axisOps c4start c4end c4line true = some c4res ∧
    c4res.u = axisOps.epsilon ∧ ¬ axisOps.epsilon < c4res.u ∧
    c4res.t = ((1 / 100000 : ℚ)) ∧ ¬ ((1 / 100000 : ℚ) < c4res.t) := by
  decide

attribute [local semireducible] Rat.add Rat.mul Rat.sub Rat.inv Rat.ofScientific in
/-- Witness for (amended) C4: on the boundary probe, the returned result is a
valid candidate realising the minimal accepted `u`. -/
theorem intersect_characterization_witness :
    c4res.index < c4line.length - 1 ∧
    validCand axisOps c4start (sVec c4start c4end) c4line true c4res.index ∧
    c4res.u = edgeU c4start (sVec c4start c4end) c4line c4res.index ∧
    c4res.t = edgeT c4start (sVec c4start c4end) c4line c4res.index ∧
    c4res.point = ⟨c4start.x + c4res.u * (sVec c4start c4end).x,
      c4start.y + c4res.u * (sVec c4start c4end).y⟩ ∧
    ∀ idx, idx < c4line.length - 1 →
      validCand axisOps c4start (sVec c4start c4end) c4line true idx →
      c4res.u ≤ edgeU c4start (sVec c4start c4end) c4line idx :=
  (intersect_characterization axisOps c4start c4end c4line true).2 c4res
    (by decide)

/-- Characterisation of `find?` over `List.range`: the first index satisfying
the predicate. -/
theorem find?_range_eq_some (p : ℕ → Bool) (n k : ℕ) :
    (List.range n).find? p = some k ↔
      p k = true ∧ k < n ∧ ∀ j, j < k → p j = false := by
  rw [List.find?_eq_some]
  constructor
  · rintro ⟨hpk, as, bs, heq, hall⟩
    have hlen : n = as.length + (bs.length + 1) := by
      have := congrArg List.length heq
      simpa [List.length_append, List.length_range] using this
    have hk : k = as.length := by
      have h2 : as.length < (List.range n).length := by
        rw [List.length_range]
        omega
      have h1 : (List.range n)[as.length] = as.length := List.getElem_range _ h2
      have h3 : (List.range n)[as.length] = k := by
        have h4 : as.length < (as ++ k :: bs).length := by
          rw [List.length_append]
          simp
        calc (List.range n)[as.length]
            = (as ++ k :: bs)[as.length] := by
              congr 1
          _ = (k :: bs)[as.length - as.length] :=
              List.getElem_append_right (le_refl _)
          _ = k := by simp
      rw [h1] at h3
      exact h3.symm
    subst hk
    refine ⟨hpk, by omega, ?_⟩
    intro j hj
    have has : as = List.range as.length := by
      have h5 : (List.range n).take as.length = as := by
        rw [heq, List.take_left]
      have h6 : (List.range n).take as.length = List.range as.length := by
        rw [List.take_range, min_eq_left (by omega : as.length ≤ n)]
      exact h5.symm.trans h6
    have hjas : j ∈ as := by
      rw [has, List.mem_range]
      exact hj
    simpa using hall j hjas
  · rintro ⟨hpk, hkn, hall⟩
    refine ⟨hpk, List.range k, List.range' (k + 1) (n - k - 1), ?_, ?_⟩
    · have hcons : k :: List.range' (k + 1) (n - k - 1) = List.range' k (n - k) := by
        have : n - k = (n - k - 1) + 1 := by omega
        rw [this]
        rfl
      rw [List.range_eq_range', hcons]
      have happ := List.range'_append 0 k (n - k) 1
      simp only [Nat.zero_add, Nat.one_mul] at happ
      rw [show List.range' 0 k = List.range k from (List.range_eq_range' k).symm] at happ
      rw [show (n - k) + k = n by omega] at happ
      exact happ.symm
    · intro a ha
      rw [List.mem_range] at ha
      simpa using hall a ha

/-- One edge's contribution to the winding number, as the specification
phrases it: `+1` for an upward crossing with the point (tolerantly) left of
the edge, `-1` for a downward crossing with the point right of the edge, `0`
otherwise. -/
def windingContrib [LinearOrderedField N] (pt : Coordinate N)
    (polygon : List (Coordinate N)) (idx : ℕ) : ℤ :=
  let p0 := polygon.getD idx ⟨0, 0⟩
  let p1 := polygon.getD (idx + 1) ⟨0, 0⟩
  if p0.y ≤ pt.y ∧ p1.y > pt.y ∧ is_left p0 p1 pt ≥ windingEpsilon then 1
  else if p0.y > pt.y ∧ p1.y ≤ pt.y ∧ is_left p0 p1 pt < windingEpsilon then -1
  else 0

theorem windingStep_eq_add_contrib [LinearOrderedField N] (pt : Coordinate N)
    (polygon : List (Coordinate N)) (wn : ℤ) (idx : ℕ) :
    windingStep pt polygon wn idx = wn + windingContrib pt polygon idx := by
  simp only [windingStep, windingContrib]
  by_cases h1 : (polygon.getD idx ⟨0, 0⟩).y ≤ pt.y
  · rw [if_pos h1]
    by_cases h2 : (polygon.getD (idx + 1) ⟨0, 0⟩).y > pt.y
    · rw [if_pos h2]
      by_cases h3 : is_left (polygon.getD idx ⟨0, 0⟩) (polygon.getD (idx + 1) ⟨0, 0⟩) pt ≥
          windingEpsilon
      · rw [if_pos h3, if_pos ⟨h1, h2, h3⟩]
      · rw [if_neg h3, if_neg (fun hc => h3 hc.2.2),
          if_neg (fun hc => absurd h1 (not_le.mpr hc.1)), add_zero]
    · rw [if_neg h2, if_neg (fun hc => h2 hc.2.1),
        if_neg (fun hc => absurd h1 (not_le.mpr hc.1)), add_zero]
  · rw [if_neg h1]
    have h1b : (polygon.getD idx ⟨0, 0⟩).y > pt.y := not_le.mp h1
    by_cases h2 : (polygon.getD (idx + 1) ⟨0, 0⟩).y ≤ pt.y
    · rw [if_pos h2]
      by_cases h3 : is_left (polygon.getD idx ⟨0, 0⟩) (polygon.getD (idx + 1) ⟨0, 0⟩) pt <
          windingEpsilon
      · rw [if_pos h3, if_neg (fun hc => absurd hc.1 h1), if_pos ⟨h1b, h2, h3⟩]
        omega
      · rw [if_neg h3, if_neg (fun hc => absurd hc.1 h1), if_neg (fun hc => h3 hc.2.2),
          add_zero]
    · rw [if_neg h2, if_neg (fun hc => absurd hc.1 h1),
        if_neg (fun hc => h2 hc.2.1), add_zero]

theorem foldl_windingStep_eq_sum [LinearOrderedField N] (pt : Coordinate N)
    (polygon : List (Coordinate N)) :
    ∀ (l : List ℕ) (init : ℤ),
      l.foldl (windingStep pt polygon) init =
        init + (l.map (windingContrib pt polygon)).sum := by
  intro l
  induction l with
  | nil => intro init; simp
  | cons a rest ih =>
    intro init
    rw [List.foldl_cons, ih, windingStep_eq_add_contrib]
    simp [add_assoc]

/-- CLAIM C5: a candidate region passes the final filter iff it has a first
edge whose endpoints differ in `y` by more than `0.01` and the winding number
of that edge's midpoint against the crossing-resolved boundary is exactly 1
(a region with no such edge is rejected); the winding number is the sum over
the boundary edges of `+1` per upward crossing with the point left of the
edge and `-1` per downward crossing with the point right, with the tolerance
`-0.00001` absorbed into the left/right tests; and a region is retained in a
filtered list iff it passes the filter. -/
theorem region_filter_rule [LinearOrderedField N]
    (connected region : List (Coordinate N)) :
    (regionFilter connected region = true ↔
      ∃ idx, idx < region.length - 1 ∧
        |(region.getD (idx + 1) ⟨0, 0⟩).y - (region.getD idx ⟨0, 0⟩).y| > filterEpsilon ∧
        (∀ j, j < idx →
          ¬ |(region.getD (j + 1) ⟨0, 0⟩).y - (region.getD j ⟨0, 0⟩).y| > filterEpsilon) ∧
        winding_number
          ⟨((region.getD idx ⟨0, 0⟩).x + (region.getD (idx + 1) ⟨0, 0⟩).x) * ((1 / 2 : ℚ) : N),
           ((region.getD idx ⟨0, 0⟩).y + (region.getD (idx + 1) ⟨0, 0⟩).y) * ((1 / 2 : ℚ) : N)⟩
          connected = 1) ∧
    (∀ pt : Coordinate N, winding_number pt connected =
      ((List.range (connected.length - 1)).map (windingContrib pt connected)).sum) ∧
    (∀ regions : List (List (Coordinate N)),
      region ∈ regions.filter (regionFilter connected) ↔
        region ∈ regions ∧ regionFilter connected region = true) := by
  refine ⟨?_, ?_, ?_⟩
  · unfold regionFilter
    constructor
    · intro h
      rcases hfind : (List.range (region.length - 1)).find? (fun idx =>
          decide (|(region.getD (idx + 1) ⟨0, 0⟩).y - (region.getD idx ⟨0, 0⟩).y| >
            filterEpsilon)) with _ | idx
      · rw [hfind] at h
        exact absurd h (by simp)
      · rw [hfind] at h
        obtain ⟨hp, hlt, hfirst⟩ := (find?_range_eq_some _ _ _).mp hfind
        refine ⟨idx, hlt, by simpa using hp, ?_, by simpa using h⟩
        intro j hj
        have := hfirst j hj
        simpa using this
    · rintro ⟨idx, hlt, hok, hfirst, hwind⟩
      have hfind : (List.range (region.length - 1)).find? (fun idx =>
          decide (|(region.getD (idx + 1) ⟨0, 0⟩).y - (region.getD idx ⟨0, 0⟩).y| >
            filterEpsilon)) = some idx := by
        rw [find?_range_eq_some]
        refine ⟨by simpa using hok, hlt, ?_⟩
        intro j hj
        simpa using hfirst j hj
      rw [hfind]
      simpa using hwind
  · intro pt
    unfold winding_number
    rw [foldl_windingStep_eq_sum]
    simp
  · intro regions
    exact List.mem_filter

/-- Every successful walk extends its accumulator by at least one point. -/
theorem walkLoop_ok_shape [LinearOrderedField N] (indices : List Index)
    (intersections connected : List (Coordinate N)) (start_idx : ℕ) :
    ∀ (fuel cur : ℕ) (region : List (Coordinate N)) (rem : List ℕ)
      (reg : List (Coordinate N)) (rem2 : List ℕ),
      walkLoop indices intersections connected start_idx fuel cur region rem =
        .ok reg rem2 →
      ∃ p suffix, reg = region ++ p :: suffix := by
  intro fuel
  induction fuel with
  | zero =>
    intro cur region rem reg rem2 h
    exact absurd h (by simp [walkLoop])
  | succ f ih =>
    intro cur region rem reg rem2 h
    rw [walkLoop] at h
    rcases hidx : indices.getD cur (.connected 0) with k | k <;>
      simp only [hidx] at h
    · by_cases hstop : start_idx = (jumpTarget indices cur + 1) % indices.length
      · rw [if_pos hstop] at h
        simp only [WalkResult.ok.injEq] at h
        exact ⟨intersections.getD k ⟨0, 0⟩, [], h.1.symm⟩
      · rw [if_neg hstop] at h
        obtain ⟨p, suffix, hps⟩ := ih _ _ _ _ _ h
        exact ⟨intersections.getD k ⟨0, 0⟩, p :: suffix, by rw [hps]; simp⟩
    · by_cases hstop : start_idx = (cur + 1) % indices.length
      · rw [if_pos hstop] at h
        simp only [WalkResult.ok.injEq] at h
        exact ⟨connected.getD k ⟨0, 0⟩, [], h.1.symm⟩
      · rw [if_neg hstop] at h
        obtain ⟨p, suffix, hps⟩ := ih _ _ _ _ _ h
        exact ⟨connected.getD k ⟨0, 0⟩, p :: suffix, by rw [hps]; simp⟩

/-- A ring is closed when its first point equals its last point (vacuously so
when empty). -/
def RingClosed (r : List (Coordinate N)) : Prop := r.head? = r.getLast?

/-- Every region recorded by the decomposition loop is closed. -/
theorem decomposeLoop_closed [LinearOrderedField N] (indices : List Index)
    (intersections connected : List (Coordinate N)) :
    ∀ (fuel : ℕ) (rem : List ℕ) (acc rs : List (List (Coordinate N))),
      (∀ r ∈ acc, RingClosed r) →
      decomposeLoop indices intersections connected fuel rem acc = .ok rs →
      ∀ r ∈ rs, RingClosed r := by
  intro fuel
  induction fuel with
  | zero =>
    intro rem acc rs hacc h
    rw [decomposeLoop.eq_def] at h
    simp only at h
    by_cases hrem : rem = []
    · rw [if_pos hrem] at h
      simp only [DecomposeResult.ok.injEq] at h
      rw [← h]
      exact hacc
    · rw [if_neg hrem] at h
      exact absurd h (by simp)
  | succ f ih =>
    intro rem acc rs hacc h
    rw [decomposeLoop.eq_def] at h
    rcases rem with _ | ⟨start, rest⟩
    · simp only [DecomposeResult.ok.injEq] at h
      rw [← h]
      exact hacc
    · simp only [] at h
      rcases hwalk : walkLoop indices intersections connected start
          (indices.length + 1) start [] (start :: rest) with ⟨region, rem2⟩ | _
      · rw [hwalk] at h
        refine ih rem2 _ rs ?_ h
        intro r hr
        by_cases hpos : region.length > 0
        · rw [if_pos hpos] at hr
          rcases List.mem_append.mp hr with hr | hr
          · exact hacc r hr
          · rw [List.mem_singleton.mp hr]
            obtain ⟨p, suffix, hps⟩ := walkLoop_ok_shape indices intersections
              connected start _ _ _ _ _ _ hwalk
            rw [hps]
            simp only [List.nil_append]
            show ((p :: suffix) ++ [(p :: suffix).getD 0 ⟨0, 0⟩]).head? =
              ((p :: suffix) ++ [(p :: suffix).getD 0 ⟨0, 0⟩]).getLast?
            rw [List.getLast?_concat]
            simp [List.getD]
        · rw [if_neg hpos] at hr
          exact hacc r hr
      · rw [hwalk] at h
        exact absurd h (by simp)

/-- CLAIM C6: whenever `offset_polygon` succeeds, every returned ring is
closed — its first point equals its last point (vacuously for the empty
ring returned on empty input). -/
theorem output_rings_closed [LinearOrderedField N] (ops : FloatOps N)
    (polygon : List (Coordinate N)) (offset arcdetail : N)
    (rs : List (List (Coordinate N)))
    (h : offset_polygon ops polygon offset arcdetail = .ok rs) :
    ∀ r ∈ rs, RingClosed r := by
  unfold offset_polygon at h
  by_cases hlen : polygon.length = 0
  · rw [if_pos hlen] at h
    simp only [OffsetResult.ok.injEq] at h
    rw [← h]
    intro r hr
    rw [List.mem_singleton.mp hr]
    rfl
  · rw [if_neg hlen] at h
    simp only at h
    rcases hcb : buildConnected ops offset (((2 : ℚ) : N) * ops.pi / arcdetail)
        (buildSegments ops offset polygon) with _ | ⟨c0, crest⟩ <;>
      simp only [hcb] at h
    · exact absurd h (by simp)
    · rcases hres : resolveLoop ops ((c0 :: crest) ++ [c0])
          (resolveFuel ((List.range (((c0 :: crest) ++ [c0]).length - 1)).map
            Index.connected).length) .outer
          ((List.range (((c0 :: crest) ++ [c0]).length - 1)).map Index.connected) [] 0 with
          ⟨indices, intersections⟩ | ints | _ | _ <;> simp only [hres] at h
      · rcases hdec : decomposeLoop indices intersections ((c0 :: crest) ++ [c0])
            indices.length (List.range indices.length) [] with ⟨regions⟩ | _ <;>
          simp only [hdec] at h
        · rcases hc2 : indices.map (lookup intersections ((c0 :: crest) ++ [c0])) with
              _ | ⟨d0, drest⟩ <;> simp only [hc2] at h
          · exact absurd h (by simp)
          · simp only [OffsetResult.ok.injEq] at h
            rw [← h]
            intro r hr
            have hmem := (List.mem_filter.mp hr).1
            exact decomposeLoop_closed indices intersections ((c0 :: crest) ++ [c0])
              indices.length (List.range indices.length) [] regions
              (by intro r hr2; exact absurd hr2 (by simp)) hdec r hmem
        · exact absurd h (by simp)
      · exact absurd h (by simp)
      · exact absurd h (by simp)
      · exact absurd h (by simp)

/-- Witness for C6: the empty-ring run succeeds and its single output ring is
closed. -/
theorem output_rings_closed_witness :
    RingClosed ([] : List (Coordinate ℚ)) :=
  output_rings_closed axisOps [] 1 10 [[]] rfl [] (by simp)

/-!
Termination of the model (claims C3 and C8).  The fuel parameters of
`resolveLoop`, `walkLoop` and `decomposeLoop` are proved sufficient: the
resolution loop is bounded by the monotone 3000-intersection cap together with
the advancing edge cursor, and the decomposition loop by the strictly
shrinking list of remaining positions.  The walk inside the decomposition
terminates because the successor map on sequence positions is injective
(crossing references come in pairs that `jumpTarget` exchanges), so the walk
returns to its start within `indices.length` steps.
-/

/-- `insertIdx` at a position inside the list adds one occurrence of the
inserted element and keeps every other count. -/
lemma count_insertIdx {α : Type} [DecidableEq α] (a b : α) :
    ∀ (i : ℕ) (l : List α), i ≤ l.length →
      (l.insertIdx i a).count b = l.count b + if a = b then 1 else 0
  | 0, l, _ => by
    simp only [List.insertIdx_zero, List.count_cons, beq_iff_eq]
  | i + 1, [], h => by simp at h
  | i + 1, x :: xs, h => by
    rw [List.insertIdx_succ_cons]
    simp only [List.count_cons]
    rw [count_insertIdx a b i xs (by simpa using h)]
    omega

/-- A list with exactly one occurrence of `v` splits around it. -/
lemma count_one_split {α : Type} [DecidableEq α] (v : α) :
    ∀ (l : List α), l.count v = 1 →
      ∃ l₁ l₂, l = l₁ ++ v :: l₂ ∧ v ∉ l₁ ∧ v ∉ l₂
  | [], h => by simp at h
  | x :: xs, h => by
    by_cases hx : x = v
    · subst hx
      have hz : xs.count x = 0 := by
        simp only [List.count_cons, beq_self_eq_true, if_pos] at h
        omega
      exact ⟨[], xs, by simp, by simp, List.count_eq_zero.mp hz⟩
    · obtain ⟨l₁, l₂, rfl, hm1, hm2⟩ := count_one_split v xs
        (by simpa [List.count_cons, hx] using h)
      exact ⟨x :: l₁, l₂, rfl,
        by simp only [List.mem_cons, not_or]; exact ⟨fun hvx => hx hvx.symm, hm1⟩, hm2⟩

/-- A list with exactly two occurrences of `v` splits around both of them. -/
lemma count_two_split {α : Type} [DecidableEq α] (v : α) :
    ∀ (l : List α), l.count v = 2 →
      ∃ l₁ l₂ l₃, l = l₁ ++ v :: (l₂ ++ v :: l₃) ∧ v ∉ l₁ ∧ v ∉ l₂ ∧ v ∉ l₃
  | [], h => by simp at h
  | x :: xs, h => by
    by_cases hx : x = v
    · subst hx
      have hone : xs.count x = 1 := by
        simp only [List.count_cons, beq_self_eq_true, if_pos] at h
        omega
      obtain ⟨l₂, l₃, rfl, hm2, hm3⟩ := count_one_split x xs hone
      exact ⟨[], l₂, l₃, by simp, by simp, hm2, hm3⟩
    · obtain ⟨l₁, l₂, l₃, rfl, hm1, hm2, hm3⟩ := count_two_split v xs
        (by simpa [List.count_cons, hx] using h)
      exact ⟨x :: l₁, l₂, l₃, rfl,
        by simp only [List.mem_cons, not_or]; exact ⟨fun hvx => hx hvx.symm, hm1⟩,
        hm2, hm3⟩

/-- `getD` at the length of the left part of an append hits the head of the
right part. -/
lemma getD_append_len {α : Type} (x d : α) :
    ∀ (l₁ l₂ : List α), (l₁ ++ x :: l₂).getD l₁.length d = x
  | [], l₂ => by simp
  | y :: ys, l₂ => by simpa using getD_append_len x d ys l₂

/-- Dropping the left part of an append together with the head of the right
part leaves the right tail. -/
lemma drop_append_len {α : Type} (x : α) :
    ∀ (l₁ l₂ : List α), (l₁ ++ x :: l₂).drop (l₁.length + 1) = l₂
  | [], l₂ => by simp
  | y :: ys, l₂ => by
    rw [List.cons_append, List.length_cons, List.drop_succ_cons]
    exact drop_append_len x ys l₂

/-- `findIdx?` finds the head of the right part of an append when the left
part has no hit. -/
lemma findIdx_opt_append_first {α : Type} (p : α → Bool) (x : α) :
    ∀ (l₁ l₂ : List α) (i : ℕ), (∀ y ∈ l₁, p y = false) → p x = true →
      (l₁ ++ x :: l₂).findIdx? p i = some (i + l₁.length)
  | [], l₂, i, _, hx => by simp [List.findIdx?_cons, hx]
  | y :: ys, l₂, i, hall, hx => by
    have hy : p y = false := hall y (by simp)
    rw [List.cons_append, List.findIdx?_cons, if_neg (by simp [hy]),
      findIdx_opt_append_first p x ys l₂ (i + 1)
        (fun z hz => hall z (by simp [hz])) hx]
    congr 1
    simp only [List.length_cons]
    omega

/-- `findIdx` finds the head of the right part of an append when the left
part has no hit. -/
lemma findIdx_append_first {α : Type} (p : α → Bool) (x : α) :
    ∀ (l₁ l₂ : List α), (∀ y ∈ l₁, p y = false) → p x = true →
      (l₁ ++ x :: l₂).findIdx p = l₁.length
  | [], l₂, _, hx => by simp [List.findIdx_cons, hx]
  | y :: ys, l₂, hall, hx => by
    have hy : p y = false := hall y (by simp)
    rw [List.cons_append, List.findIdx_cons, hy]
    simp [findIdx_append_first p x ys l₂ (fun z hz => hall z (by simp [hz])) hx]

/-- In a list with exactly two occurrences of `v`, a position holding `v` is
one of the two occurrence positions. -/
lemma getD_two_pos {α : Type} (v d : α) (l₁ l₂ l₃ : List α)
    (h1 : v ∉ l₁) (h2 : v ∉ l₂) (h3 : v ∉ l₃) (p : ℕ)
    (hp : p < (l₁ ++ v :: (l₂ ++ v :: l₃)).length)
    (hv : (l₁ ++ v :: (l₂ ++ v :: l₃)).getD p d = v) :
    p = l₁.length ∨ p = l₁.length + 1 + l₂.length := by
  rcases lt_trichotomy p l₁.length with hlt | heq | hgt
  · exfalso
    rw [List.getD_append _ _ _ _ hlt] at hv
    have hmem : l₁.getD p d ∈ l₁ := by
      rw [List.getD_eq_getElem l₁ d hlt]
      exact List.getElem_mem hlt
    exact h1 (hv ▸ hmem)
  · exact Or.inl heq
  · rw [List.getD_append_right _ _ _ _ (le_of_lt hgt)] at hv
    have hq : p - l₁.length = (p - l₁.length - 1) + 1 := by omega
    rw [hq, List.getD_cons_succ] at hv
    rcases lt_trichotomy (p - l₁.length - 1) l₂.length with h2lt | h2eq | h2gt
    · exfalso
      rw [List.getD_append _ _ _ _ h2lt] at hv
      have hmem : l₂.getD (p - l₁.length - 1) d ∈ l₂ := by
        rw [List.getD_eq_getElem l₂ d h2lt]
        exact List.getElem_mem h2lt
      exact h2 (hv ▸ hmem)
    · exact Or.inr (by omega)
    · exfalso
      rw [List.getD_append_right _ _ _ _ (le_of_lt h2gt)] at hv
      have hr : p - l₁.length - 1 - l₂.length = (p - l₁.length - 1 - l₂.length - 1) + 1 := by
        omega
      rw [hr, List.getD_cons_succ] at hv
      have hlen : p - l₁.length - 1 - l₂.length - 1 < l₃.length := by
        simp only [List.length_append, List.length_cons] at hp
        omega
      have hmem : l₃.getD (p - l₁.length - 1 - l₂.length - 1) d ∈ l₃ := by
        rw [List.getD_eq_getElem l₃ d hlen]
        exact List.getElem_mem hlen
      exact h3 (hv ▸ hmem)

/-- At the first of two occurrences of `v`, `jumpTarget` lands on the second;
at the second, the forward search fails and the fallback lands on the first. -/
lemma jumpTarget_pair (v : Index) (l₁ l₂ l₃ : List Index)
    (h1 : v ∉ l₁) (h2 : v ∉ l₂) (h3 : v ∉ l₃) :
    jumpTarget (l₁ ++ v :: (l₂ ++ v :: l₃)) l₁.length = l₁.length + 1 + l₂.length ∧
    jumpTarget (l₁ ++ v :: (l₂ ++ v :: l₃)) (l₁.length + 1 + l₂.length) = l₁.length := by
  have hassoc : l₁ ++ v :: (l₂ ++ v :: l₃) = (l₁ ++ v :: l₂) ++ v :: l₃ := by simp
  have hlen : (l₁ ++ v :: l₂).length = l₁.length + 1 + l₂.length := by
    simp only [List.length_append, List.length_cons]
    omega
  constructor
  · have hget := getD_append_len v (Index.connected 0) l₁ (l₂ ++ v :: l₃)
    have hdrop := drop_append_len v l₁ (l₂ ++ v :: l₃)
    have hfind : (l₂ ++ v :: l₃).findIdx? (fun i => i == v) = some (0 + l₂.length) :=
      findIdx_opt_append_first (fun i => i == v) v l₂ l₃ 0
        (fun y hy => by simp only [beq_eq_false_iff_ne, ne_eq]; exact fun h => h2 (h ▸ hy))
        (by simp)
    simp only [jumpTarget, hget, hdrop, hfind]
    omega
  · have hget : (l₁ ++ v :: (l₂ ++ v :: l₃)).getD (l₁.length + 1 + l₂.length)
        (Index.connected 0) = v := by
      rw [hassoc, ← hlen]
      exact getD_append_len v (Index.connected 0) (l₁ ++ v :: l₂) l₃
    have hdrop : (l₁ ++ v :: (l₂ ++ v :: l₃)).drop (l₁.length + 1 + l₂.length + 1) = l₃ := by
      rw [hassoc, ← hlen]
      exact drop_append_len v (l₁ ++ v :: l₂) l₃
    have hnone : l₃.findIdx? (fun i => i == v) = none :=
      List.findIdx?_eq_none_iff.mpr
        (fun x hx => by simp only [beq_eq_false_iff_ne, ne_eq]; exact fun h => h3 (h ▸ hx))
    have hfall : (l₁ ++ v :: (l₂ ++ v :: l₃)).findIdx (fun i => i == v) = l₁.length :=
      findIdx_append_first (fun i => i == v) v l₁ (l₂ ++ v :: l₃)
        (fun y hy => by simp only [beq_eq_false_iff_ne, ne_eq]; exact fun h => h1 (h ▸ hy))
        (by simp)
    simp only [jumpTarget, hget, hdrop, hnone, hfall]

/-- The advance map of the decomposition walk before the wrap step
(`src/lib.rs`, lines 198–204): at a crossing reference the walk jumps to the
other occurrence of the same `Index`, at a connected reference it stays. -/
def walkSigma (indices : List Index) (p : ℕ) : ℕ :=
  match indices.getD p (.connected 0) with
  | .intersection _ => jumpTarget indices p
  | .connected _ => p

/-- The full advance map of the decomposition walk (`src/lib.rs`, line 205):
one past `walkSigma`, wrapped around the end of the index sequence. -/
def walkNext (indices : List Index) (p : ℕ) : ℕ :=
  (walkSigma indices p + 1) % indices.length

/-- When every crossing reference occurs exactly twice, the pre-wrap advance
map is an involution on positions. -/
lemma walkSigma_invol (l : List Index)
    (hcnt : ∀ k, l.count (.intersection k) = 0 ∨ l.count (.intersection k) = 2) :
    ∀ p, p < l.length → walkSigma l p < l.length ∧ walkSigma l (walkSigma l p) = p := by
  intro p hp
  rcases hgd : l.getD p (.connected 0) with k | k
  · have hmem : (Index.intersection k) ∈ l := by
      rw [← hgd, List.getD_eq_getElem l _ hp]
      exact List.getElem_mem hp
    have h2 : l.count (.intersection k) = 2 := by
      rcases hcnt k with h | h
      · exact absurd (List.count_eq_zero.mp h) (by simp [hmem])
      · exact h
    obtain ⟨l₁, l₂, l₃, hdec, hn1, hn2, hn3⟩ := count_two_split _ l h2
    subst hdec
    obtain ⟨hj1, hj2⟩ := jumpTarget_pair (Index.intersection k) l₁ l₂ l₃ hn1 hn2 hn3
    have hga : (l₁ ++ Index.intersection k :: (l₂ ++ Index.intersection k :: l₃)).getD
        l₁.length (Index.connected 0) = Index.intersection k :=
      getD_append_len _ _ l₁ _
    have hgb : (l₁ ++ Index.intersection k :: (l₂ ++ Index.intersection k :: l₃)).getD
        (l₁.length + 1 + l₂.length) (Index.connected 0) = Index.intersection k := by
      rw [show l₁ ++ Index.intersection k :: (l₂ ++ Index.intersection k :: l₃) =
          (l₁ ++ Index.intersection k :: l₂) ++ Index.intersection k :: l₃ by simp,
        show l₁.length + 1 + l₂.length = (l₁ ++ Index.intersection k :: l₂).length by
          simp only [List.length_append, List.length_cons]; omega]
      exact getD_append_len _ _ _ _
    have hblt : l₁.length + 1 + l₂.length <
        (l₁ ++ Index.intersection k :: (l₂ ++ Index.intersection k :: l₃)).length := by
      simp only [List.length_append, List.length_cons]
      omega
    rcases getD_two_pos (Index.intersection k) (Index.connected 0) l₁ l₂ l₃
        hn1 hn2 hn3 p hp hgd with hpa | hpb
    · subst hpa
      refine ⟨?_, ?_⟩
      · simp only [walkSigma, hgd, hj1]
        exact hblt
      · simp only [walkSigma, hgd, hj1, hgb, hj2]
    · subst hpb
      refine ⟨?_, ?_⟩
      · simp only [walkSigma, hgd, hj2]
        simp only [List.length_append, List.length_cons]
        omega
      · simp only [walkSigma, hgd, hj2, hga, hj1]
  · exact ⟨by simp only [walkSigma, hgd]; exact hp, by simp only [walkSigma, hgd]⟩

/-- The wrap step `p ↦ (p + 1) % n` is injective on positions below `n`. -/
lemma modSucc_inj (n x y : ℕ) (hx : x < n) (hy : y < n)
    (h : (x + 1) % n = (y + 1) % n) : x = y := by
  have hx' : (x + 1) % n = if x + 1 = n then 0 else x + 1 := by
    by_cases hc : x + 1 = n
    · simp [hc]
    · rw [if_neg hc]
      exact Nat.mod_eq_of_lt (by omega)
  have hy' : (y + 1) % n = if y + 1 = n then 0 else y + 1 := by
    by_cases hc : y + 1 = n
    · simp [hc]
    · rw [if_neg hc]
      exact Nat.mod_eq_of_lt (by omega)
  rw [hx', hy'] at h
  split_ifs at h <;> omega

/-- When every crossing reference occurs exactly twice, the walk's advance map
keeps positions in range and is injective on them. -/
lemma walkNext_bound_inj (l : List Index)
    (hcnt : ∀ k, l.count (.intersection k) = 0 ∨ l.count (.intersection k) = 2) :
    (∀ p, p < l.length → walkNext l p < l.length) ∧
    (∀ p q, p < l.length → q < l.length → walkNext l p = walkNext l q → p = q) := by
  have hσ := walkSigma_invol l hcnt
  refine ⟨fun p hp => Nat.mod_lt _ (by omega), fun p q hp hq h => ?_⟩
  have hs := modSucc_inj l.length _ _ (hσ p hp).1 (hσ q hq).1 h
  calc p = walkSigma l (walkSigma l p) := ((hσ p hp).2).symm
  _ = walkSigma l (walkSigma l q) := by rw [hs]
  _ = q := (hσ q hq).2

/-- Iterates of a self-map of `[0, n)` stay in `[0, n)`. -/
lemma iterate_lt (f : ℕ → ℕ) (n : ℕ) (hf : ∀ p, p < n → f p < n) (s : ℕ) (hs : s < n) :
    ∀ m, f^[m] s < n
  | 0 => hs
  | m + 1 => by
    rw [Function.iterate_succ_apply']
    exact hf _ (iterate_lt f n hf s hs m)

/-- Iterates of an injective self-map of `[0, n)` are injective on `[0, n)`. -/
lemma iterate_cancel (f : ℕ → ℕ) (n : ℕ) (hf : ∀ p, p < n → f p < n)
    (hinj : ∀ p q, p < n → q < n → f p = f q → p = q) :
    ∀ (m x y : ℕ), x < n → y < n → f^[m] x = f^[m] y → x = y
  | 0, x, y, _, _, h => h
  | m + 1, x, y, hx, hy, h => by
    rw [Function.iterate_succ_apply, Function.iterate_succ_apply] at h
    exact hinj x y hx hy
      (iterate_cancel f n hf hinj m (f x) (f y) (hf x hx) (hf y hy) h)

/-- Two colliding iterates below `n + 1` yield a return to the start. -/
lemma orbit_of_collision (f : ℕ → ℕ) (n : ℕ) (hf : ∀ p, p < n → f p < n)
    (hinj : ∀ p q, p < n → q < n → f p = f q → p = q)
    (s : ℕ) (hs : s < n) (i j : ℕ) (hij : i < j) (hj : j ≤ n)
    (h : f^[i] s = f^[j] s) :
    ∃ m, 1 ≤ m ∧ m ≤ n ∧ f^[m] s = s := by
  have hit := iterate_lt f n hf s hs
  refine ⟨j - i, by omega, by omega, ?_⟩
  have hstep : f^[i] (f^[j - i] s) = f^[i] s := by
    rw [← Function.iterate_add_apply, show i + (j - i) = j by omega, h]
  exact iterate_cancel f n hf hinj i _ s (hit _) hs hstep

/-- Pigeonhole: an injective self-map of `[0, n)` returns every start to
itself within `n` steps. -/
lemma orbit_exists (f : ℕ → ℕ) (n : ℕ) (hf : ∀ p, p < n → f p < n)
    (hinj : ∀ p q, p < n → q < n → f p = f q → p = q)
    (s : ℕ) (hs : s < n) :
    ∃ m, 1 ≤ m ∧ m ≤ n ∧ f^[m] s = s := by
  have hit := iterate_lt f n hf s hs
  obtain ⟨i, j, hne, hij⟩ := Fintype.exists_ne_map_eq_of_card_lt
    (fun i : Fin (n + 1) => (⟨f^[(i : ℕ)] s, hit i⟩ : Fin n)) (by simp)
  have hval : f^[(i : ℕ)] s = f^[(j : ℕ)] s := congrArg Fin.val hij
  have hnev : (i : ℕ) ≠ (j : ℕ) := fun hc => hne (Fin.ext hc)
  rcases Nat.lt_or_ge (i : ℕ) (j : ℕ) with hlt | hge
  · exact orbit_of_collision f n hf hinj s hs i j hlt (by omega) hval
  · exact orbit_of_collision f n hf hinj s hs j i (by omega) (by omega) hval.symm

/-- The walk does not exhaust its fuel when its advance map returns it to the
start within the fuel bound. -/
lemma walkLoop_ne_fuelOut [LinearOrderedField N] (indices : List Index)
    (ints conn : List (Coordinate N)) (start : ℕ) :
    ∀ (fuel cur : ℕ) (region : List (Coordinate N)) (rem : List ℕ),
      (∃ m, 1 ≤ m ∧ m ≤ fuel ∧ (walkNext indices)^[m] cur = start) →
      walkLoop indices ints conn start fuel cur region rem ≠ .fuelOut
  | 0, cur, region, rem, ⟨m, hm1, hm2, _⟩ => by omega
  | fuel + 1, cur, region, rem, ⟨m, hm1, hm2, hm3⟩ => by
    have hbody : ∃ reg', walkLoop indices ints conn start (fuel + 1) cur region rem =
        (if start = walkNext indices cur then WalkResult.ok reg' (rem.erase cur)
         else walkLoop indices ints conn start fuel (walkNext indices cur) reg'
           (rem.erase cur)) := by
      rcases hgd : indices.getD cur (.connected 0) with k | k
      · exact ⟨region ++ [ints.getD k ⟨0, 0⟩],
          by simp only [walkLoop, hgd, walkNext, walkSigma]⟩
      · exact ⟨region ++ [conn.getD k ⟨0, 0⟩],
          by simp only [walkLoop, hgd, walkNext, walkSigma]⟩
    obtain ⟨reg', hb⟩ := hbody
    rw [hb]
    by_cases hstop : start = walkNext indices cur
    · rw [if_pos hstop]
      simp
    · rw [if_neg hstop]
      refine walkLoop_ne_fuelOut indices ints conn start fuel _ reg' (rem.erase cur)
        ⟨m - 1, ?_, by omega, ?_⟩
      · by_cases hm : m = 1
        · exact absurd (by rw [← hm3, hm, Function.iterate_one]) hstop
        · omega
      · have hiter : (walkNext indices)^[(m - 1) + 1] cur = start := by
          rw [show (m - 1) + 1 = m by omega]
          exact hm3
        rw [Function.iterate_succ_apply] at hiter
        exact hiter

/-- A successful walk only removes positions from `remaining`, starting with
the position it was launched from. -/
lemma walkLoop_remaining [LinearOrderedField N] (indices : List Index)
    (ints conn : List (Coordinate N)) (start : ℕ) :
    ∀ (fuel cur : ℕ) (region reg : List (Coordinate N)) (rem rem2 : List ℕ),
      walkLoop indices ints conn start fuel cur region rem = .ok reg rem2 →
      rem2.length ≤ (rem.erase cur).length ∧ rem2 ⊆ rem.erase cur
  | 0, cur, region, reg, rem, rem2, h => by simp [walkLoop] at h
  | fuel + 1, cur, region, reg, rem, rem2, h => by
    have hbody : ∃ reg', walkLoop indices ints conn start (fuel + 1) cur region rem =
        (if start = walkNext indices cur then WalkResult.ok reg' (rem.erase cur)
         else walkLoop indices ints conn start fuel (walkNext indices cur) reg'
           (rem.erase cur)) := by
      rcases hgd : indices.getD cur (.connected 0) with k | k
      · exact ⟨region ++ [ints.getD k ⟨0, 0⟩],
          by simp only [walkLoop, hgd, walkNext, walkSigma]⟩
      · exact ⟨region ++ [conn.getD k ⟨0, 0⟩],
          by simp only [walkLoop, hgd, walkNext, walkSigma]⟩
    obtain ⟨reg', hb⟩ := hbody
    rw [hb] at h
    by_cases hstop : start = walkNext indices cur
    · rw [if_pos hstop] at h
      cases h
      exact ⟨le_refl _, fun x hx => hx⟩
    · rw [if_neg hstop] at h
      obtain ⟨hlen, hsub⟩ := walkLoop_remaining indices ints conn start fuel
        (walkNext indices cur) reg' reg (rem.erase cur) rem2 h
      exact ⟨le_trans hlen ((List.erase_sublist _ _).length_le),
        fun x hx => List.erase_subset _ _ (hsub hx)⟩

/-- The decomposition does not exhaust its fuel: each walk removes at least
its start position from the remaining list, whose length bounds the fuel. -/
lemma decomposeLoop_ne_fuelOut [LinearOrderedField N] (indices : List Index)
    (ints conn : List (Coordinate N))
    (hcnt : ∀ k, indices.count (.intersection k) = 0 ∨
      indices.count (.intersection k) = 2) :
    ∀ (fuel : ℕ) (rem : List ℕ) (regions : List (List (Coordinate N))),
      rem.length ≤ fuel → (∀ x ∈ rem, x < indices.length) →
      decomposeLoop indices ints conn fuel rem regions ≠ .fuelOut
  | 0, rem, regions, hle, _ => by
    have hnil : rem = [] := List.length_eq_zero.mp (by omega)
    subst hnil
    simp [decomposeLoop]
  | fuel + 1, rem, regions, hle, hmem => by
    rcases rem with _ | ⟨start, rest⟩
    · simp [decomposeLoop]
    · have hstart : start < indices.length := hmem start (by simp)
      obtain ⟨hbnd, hinj⟩ := walkNext_bound_inj indices hcnt
      obtain ⟨m, hm1, hm2, hm3⟩ := orbit_exists (walkNext indices) indices.length
        hbnd hinj start hstart
      have hwalk := walkLoop_ne_fuelOut indices ints conn start (indices.length + 1)
        start [] (start :: rest) ⟨m, hm1, by omega, hm3⟩
      rw [decomposeLoop.eq_def]
      simp only []
      cases hw : walkLoop indices ints conn start (indices.length + 1) start []
          (start :: rest) with
      | fuelOut => exact absurd hw hwalk
      | ok reg rem2 =>
        obtain ⟨hlen, hsub⟩ := walkLoop_remaining indices ints conn start
          (indices.length + 1) start [] reg (start :: rest) rem2 hw
        rw [List.erase_cons_head] at hlen hsub
        simp only [List.length_cons] at hle
        exact decomposeLoop_ne_fuelOut indices ints conn hcnt fuel rem2 _
          (by omega) (fun x hx => hmem x (List.mem_cons_of_mem _ (hsub hx)))

/-- Invariant of the resolution loop: every crossing reference occurs zero or
two times in the index sequence, and references at or above the current
intersection count do not occur at all. -/
def TwiceInv (indices : List Index) (c : ℕ) : Prop :=
  ∀ k : ℕ,
    (indices.count (.intersection k) = 0 ∨ indices.count (.intersection k) = 2) ∧
    (c ≤ k → indices.count (.intersection k) = 0)

/-- The initial index sequence carries no crossing reference. -/
lemma twiceInv_init (n : ℕ) : TwiceInv ((List.range n).map .connected) 0 := by
  intro k
  have hz : ((List.range n).map Index.connected).count (.intersection k) = 0 := by
    rw [List.count_eq_zero]
    intro hmem
    obtain ⟨j, _, hj⟩ := List.mem_map.mp hmem
    exact Index.noConfusion hj
  exact ⟨Or.inl hz, fun _ => hz⟩

/-- Inserting the two references of a fresh crossing preserves the invariant
and advances the count. -/
lemma twiceInv_insert2 (indices : List Index) (c : ℕ) (hTI : TwiceInv indices c)
    (i1 i2 : ℕ) (h1 : i1 ≤ indices.length)
    (h2 : i2 ≤ (indices.insertIdx i1 (.intersection c)).length) :
    TwiceInv ((indices.insertIdx i1 (.intersection c)).insertIdx i2 (.intersection c))
      (c + 1) := by
  intro k
  rw [count_insertIdx (Index.intersection c) (Index.intersection k) i2 _ h2,
    count_insertIdx (Index.intersection c) (Index.intersection k) i1 indices h1]
  by_cases hk : c = k
  · subst hk
    have hz : indices.count (.intersection c) = 0 := (hTI c).2 (le_refl c)
    refine ⟨Or.inr ?_, fun hck => by omega⟩
    rw [hz]
    simp
  · have hif : (if (Index.intersection c : Index) = Index.intersection k then 1 else 0)
      = 0 := by simp [hk]
    simp only [hif, Nat.add_zero]
    exact ⟨(hTI k).1, fun hck => (hTI k).2 (by omega)⟩

/-- Bit of the loop potential spent on re-entering the outer loop head. -/
def phaseBit : ResolvePhase N → ℕ
  | .outer => 1
  | .inner _ _ => 0

/-- Side condition of the inner phase: the current edge exists. -/
def phaseOK : ResolvePhase N → ℕ → ℕ → Prop
  | .outer, _, _ => True
  | .inner _ _, idx, len => idx + 1 < len

/-- Master characterisation of the resolution loop: with fuel above the loop
potential it never runs out, it preserves the pairing invariant, and it either
finishes with at most 3000 materialised intersections, stops with exactly
3001 at the moment the cap is crossed, or aborts with the `intersect` panic
on an empty `rest`. -/
lemma resolveLoop_master [LinearOrderedField N] (ops : FloatOps N)
    (conn : List (Coordinate N)) :
    ∀ (fuel : ℕ) (phase : ResolvePhase N) (indices : List Index)
      (ints : List (Coordinate N)) (idx : ℕ),
      ints.length ≤ 3000 →
      TwiceInv indices ints.length →
      phaseOK phase idx indices.length →
      2 * (indices.length - idx) + 4 * (3001 - ints.length) + phaseBit phase < fuel →
      (∃ idc ints2, resolveLoop ops conn fuel phase indices ints idx = .done idc ints2 ∧
        ints2.length ≤ 3000 ∧ TwiceInv idc ints2.length) ∨
      (∃ ints2, resolveLoop ops conn fuel phase indices ints idx = .explosion ints2 ∧
        ints2.length = 3001) ∨
      resolveLoop ops conn fuel phase indices ints idx = .intersectPanic
  | 0, phase, indices, ints, idx, _, _, _, hfuel => by omega
  | fuel + 1, .outer, indices, ints, idx, hlen, hTI, _, hfuel => by
    simp only [resolveLoop]
    by_cases hlt : idx < indices.length - 1
    · rw [if_pos hlt]
      exact resolveLoop_master ops conn fuel _ indices ints idx hlen hTI
        (by simp only [phaseOK]; omega)
        (by simp only [phaseBit] at hfuel ⊢; omega)
    · rw [if_neg hlt]
      exact Or.inl ⟨indices, ints, rfl, hlen, hTI⟩
  | fuel + 1, .inner p0 p1, indices, ints, idx, hlen, hTI, hok, hfuel => by
    have hok' : idx + 1 < indices.length := hok
    simp only [resolveLoop]
    by_cases hrest : (restOf indices idx).map (lookup ints conn) = []
    · rw [if_pos hrest]
      exact Or.inr (Or.inr rfl)
    · rw [if_neg hrest]
      rcases hint : intersect ops p0 p1 ((restOf indices idx).map (lookup ints conn)) true
        with _ | int
      · simp only [hint]
        exact resolveLoop_master ops conn fuel .outer indices ints (idx + 1) hlen hTI
          trivial (by simp only [phaseBit] at hfuel ⊢; omega)
      · simp only [hint]
        have hlen1 : (ints ++ [int.point]).length = ints.length + 1 := by simp
        by_cases hexp : (ints ++ [int.point]).length > 3000
        · rw [if_pos hexp]
          exact Or.inr (Or.inl ⟨ints ++ [int.point], rfl, by omega⟩)
        · rw [if_neg hexp]
          rw [show (ints ++ [int.point]).length - 1 = ints.length by omega]
          have hi1 : idx + 1 ≤ indices.length := by omega
          have hlenins :
              (indices.insertIdx (idx + 1) (.intersection ints.length)).length =
              indices.length + 1 := List.length_insertIdx _ _ hi1
          have hmodlt : (idx + 3 + int.index) %
              (indices.insertIdx (idx + 1) (.intersection ints.length)).length <
              indices.length + 1 := by
            rw [hlenins]
            exact Nat.mod_lt _ (by omega)
          have hother :
              (if (idx + 3 + int.index) %
                    (indices.insertIdx (idx + 1) (.intersection ints.length)).length > idx
                then (idx + 3 + int.index) %
                    (indices.insertIdx (idx + 1) (.intersection ints.length)).length + 1
                else (idx + 3 + int.index) %
                    (indices.insertIdx (idx + 1) (.intersection ints.length)).length) ≤
              (indices.insertIdx (idx + 1) (.intersection ints.length)).length := by
            split <;> omega
          have hlenins2 :
              ((indices.insertIdx (idx + 1) (.intersection ints.length)).insertIdx
                (if (idx + 3 + int.index) %
                      (indices.insertIdx (idx + 1) (.intersection ints.length)).length > idx
                  then (idx + 3 + int.index) %
                      (indices.insertIdx (idx + 1) (.intersection ints.length)).length + 1
                  else (idx + 3 + int.index) %
                      (indices.insertIdx (idx + 1) (.intersection ints.length)).length)
                (.intersection ints.length)).length = indices.length + 2 := by
            rw [List.length_insertIdx _ _ hother, hlenins]
          exact resolveLoop_master ops conn fuel (.inner int.point p1) _
            (ints ++ [int.point]) (idx + 1)
            (by omega)
            (by rw [hlen1]; exact twiceInv_insert2 indices ints.length hTI _ _ hi1 hother)
            (by simp only [phaseOK]; rw [hlenins2]; omega)
            (by simp only [phaseBit] at hfuel ⊢; rw [hlenins2, hlen1]; omega)

/-- The closed raw boundary that `offset_polygon` resolves against
(`src/lib.rs`, lines 140–147): the connected offset contour with its first
point appended again, or `[]` when the contour is empty. -/
def connectedOf [LinearOrderedField N] (ops : FloatOps N)
    (polygon : List (Coordinate N)) (offset arcdetail : N) : List (Coordinate N) :=
  match buildConnected ops offset (((2 : ℚ) : N) * ops.pi / arcdetail)
      (buildSegments ops offset polygon) with
  | [] => []
  | c0 :: crest => (c0 :: crest) ++ [c0]

/-- The initial index sequence of the resolution loop (`src/lib.rs`,
line 148). -/
def indicesOf [LinearOrderedField N] (ops : FloatOps N)
    (polygon : List (Coordinate N)) (offset arcdetail : N) : List Index :=
  (List.range ((connectedOf ops polygon offset arcdetail).length - 1)).map .connected

/-- The run of the self-intersection resolution loop exactly as
`offset_polygon` performs it (`src/lib.rs`, lines 149–182). -/
def resolveOf [LinearOrderedField N] (ops : FloatOps N)
    (polygon : List (Coordinate N)) (offset arcdetail : N) : ResolveResult N :=
  resolveLoop ops (connectedOf ops polygon offset arcdetail)
    (resolveFuel (indicesOf ops polygon offset arcdetail).length) .outer
    (indicesOf ops polygon offset arcdetail) [] 0

/-- The resolution loop run by `offset_polygon` never exhausts its fuel: it
finishes with at most 3000 intersections and the pairing invariant, stops
with exactly 3001, or aborts with the `intersect` panic on an empty `rest`. -/
lemma resolveOf_spec [LinearOrderedField N] (ops : FloatOps N)
    (polygon : List (Coordinate N)) (offset arcdetail : N) :
    (∃ idc ints, resolveOf ops polygon offset arcdetail = .done idc ints ∧
      ints.length ≤ 3000 ∧ TwiceInv idc ints.length) ∨
    (∃ ints, resolveOf ops polygon offset arcdetail = .explosion ints ∧
      ints.length = 3001) ∨
    resolveOf ops polygon offset arcdetail = .intersectPanic :=
  resolveLoop_master ops (connectedOf ops polygon offset arcdetail)
    (resolveFuel (indicesOf ops polygon offset arcdetail).length) .outer
    (indicesOf ops polygon offset arcdetail) [] 0
    (by simp)
    (twiceInv_init _)
    trivial
    (by simp only [resolveFuel, phaseBit, List.length_nil]; omega)

/-- `offset_polygon` reaches one of exactly four outcomes: success, the
3000-intersection cap, the out-of-bounds panic on an empty boundary, or the
`intersect` panic on an empty `rest`. -/
lemma offset_polygon_cases [LinearOrderedField N] (ops : FloatOps N)
    (polygon : List (Coordinate N)) (offset arcdetail : N) :
    (∃ rings, offset_polygon ops polygon offset arcdetail = .ok rings) ∨
    offset_polygon ops polygon offset arcdetail = .combinatorialExplosion ∨
    offset_polygon ops polygon offset arcdetail = .indexOutOfBounds ∨
    offset_polygon ops polygon offset arcdetail = .intersectPanic := by
  by_cases hpo : polygon.length = 0
  · exact Or.inl ⟨[[]], by rw [offset_polygon, if_pos hpo]⟩
  · rcases hcb : buildConnected ops offset (((2 : ℚ) : N) * ops.pi / arcdetail)
        (buildSegments ops offset polygon) with _ | ⟨c0, crest⟩
    · right; right; left
      rw [offset_polygon, if_neg hpo]
      simp only [hcb]
    · have hreq : resolveOf ops polygon offset arcdetail =
          resolveLoop ops ((c0 :: crest) ++ [c0])
            (resolveFuel ((List.range (((c0 :: crest) ++ [c0]).length - 1)).map
              Index.connected).length) .outer
            ((List.range (((c0 :: crest) ++ [c0]).length - 1)).map Index.connected)
            [] 0 := by
        simp only [resolveOf, indicesOf, connectedOf, hcb]
      rcases resolveOf_spec ops polygon offset arcdetail with
        ⟨idc, ints, hdone, hle, hTI⟩ | ⟨ints, hexp, _⟩ | hpan
      · rw [hreq] at hdone
        have hdnf := decomposeLoop_ne_fuelOut idc ints ((c0 :: crest) ++ [c0])
          (fun k => (hTI k).1) idc.length (List.range idc.length) []
          (by simp) (fun x hx => List.mem_range.mp hx)
        rcases hdec : decomposeLoop idc ints ((c0 :: crest) ++ [c0]) idc.length
            (List.range idc.length) [] with regs | _
        · rcases hc2 : idc.map (lookup ints ((c0 :: crest) ++ [c0])) with _ | ⟨d0, drest⟩
          · right; right; left
            rw [offset_polygon, if_neg hpo]
            simp only [hcb, hdone, hdec, hc2]
          · left
            refine ⟨regs.filter (regionFilter ((d0 :: drest) ++ [d0])), ?_⟩
            rw [offset_polygon, if_neg hpo]
            simp only [hcb, hdone, hdec, hc2]
        · exact absurd hdec hdnf
      · right; left
        rw [hreq] at hexp
        rw [offset_polygon, if_neg hpo]
        simp only [hcb, hexp]
      · right; right; right
        rw [hreq] at hpan
        rw [offset_polygon, if_neg hpo]
        simp only [hcb, hpan]

/-- CLAIM C8: for every input the embedding of `offset_polygon` terminates
with a value — neither the intersection-resolution loop (bounded by the
monotone 3000-intersection cap together with the advancing edge cursor) nor
the region decomposition (whose remaining-position list strictly shrinks with
every walk) can run forever, modelled by the fuel sentinels being
unreachable at the fuel budgets `offset_polygon` supplies. -/
theorem offset_polygon_terminates [LinearOrderedField N] (ops : FloatOps N)
    (polygon : List (Coordinate N)) (offset arcdetail : N) :
    offset_polygon ops polygon offset arcdetail ≠ .fuelExhausted ∧
    resolveOf ops polygon offset arcdetail ≠ .fuelOut := by
  constructor
  · rcases offset_polygon_cases ops polygon offset arcdetail with
      ⟨rings, h⟩ | h | h | h <;> simp [h]
  · rcases resolveOf_spec ops polygon offset arcdetail with ⟨idc, ints, h, _, _⟩ |
      ⟨ints, h, _⟩ | h <;> simp [h]

/-- CLAIM C3 (amended): `offset_polygon` returns `Err(CombinatorialExplosion)`
exactly when its resolution loop materialises a 3001st intersection; every
success materialises at most 3000; and `CombinatorialExplosion` is the only
`Err` value — but not the only failure: besides success and that error the
run can abort by panicking, either at `connected[0]` on an empty boundary
(claim C10) or inside `intersect` when the resolution sequence has exactly
two entries and `rest` is empty (the model's fuel sentinel is unreachable,
so no further outcome exists). -/
theorem combinatorial_explosion_cap [LinearOrderedField N] (ops : FloatOps N)
    (polygon : List (Coordinate N)) (offset arcdetail : N) :
    (offset_polygon ops polygon offset arcdetail = .combinatorialExplosion ↔
      polygon.length ≠ 0 ∧
      ∃ ints, resolveOf ops polygon offset arcdetail = .explosion ints ∧
        ints.length = 3001) ∧
    (∀ rings, offset_polygon ops polygon offset arcdetail = .ok rings →
      polygon.length = 0 ∨
      ∃ idc ints, resolveOf ops polygon offset arcdetail = .done idc ints ∧
        ints.length ≤ 3000) ∧
    ((∃ rings, offset_polygon ops polygon offset arcdetail = .ok rings) ∨
      offset_polygon ops polygon offset arcdetail = .combinatorialExplosion ∨
      offset_polygon ops polygon offset arcdetail = .indexOutOfBounds ∨
      offset_polygon ops polygon offset arcdetail = .intersectPanic) := by
  refine ⟨⟨?_, ?_⟩, ?_, offset_polygon_cases ops polygon offset arcdetail⟩
  · intro h
    by_cases hpo : polygon.length = 0
    · rw [offset_polygon, if_pos hpo] at h
      exact absurd h (by simp)
    · refine ⟨hpo, ?_⟩
      rw [offset_polygon, if_neg hpo] at h
      simp only at h
      rcases hcb : buildConnected ops offset (((2 : ℚ) : N) * ops.pi / arcdetail)
          (buildSegments ops offset polygon) with _ | ⟨c0, crest⟩ <;>
        simp only [hcb] at h
      · exact absurd h (by simp)
      · have hreq : resolveOf ops polygon offset arcdetail =
            resolveLoop ops ((c0 :: crest) ++ [c0])
              (resolveFuel ((List.range (((c0 :: crest) ++ [c0]).length - 1)).map
                Index.connected).length) .outer
              ((List.range (((c0 :: crest) ++ [c0]).length - 1)).map Index.connected)
              [] 0 := by
          simp only [resolveOf, indicesOf, connectedOf, hcb]
        rcases resolveOf_spec ops polygon offset arcdetail with
          ⟨idc, ints, hdone, hle, hTI⟩ | ⟨ints, hexp, h3001⟩ | hpan
        · exfalso
          have hdone' := hreq ▸ hdone
          simp only [hdone'] at h
          rcases hdec : decomposeLoop idc ints ((c0 :: crest) ++ [c0]) idc.length
              (List.range idc.length) [] with regs | _ <;> simp only [hdec] at h
          · rcases hc2 : idc.map (lookup ints ((c0 :: crest) ++ [c0])) with
                _ | ⟨d0, drest⟩ <;> simp only [hc2] at h
            · exact absurd h (by simp)
            · exact absurd h (by simp)
          · exact absurd h (by simp)
        · exact ⟨ints, hexp, h3001⟩
        · exfalso
          have hpan' := hreq ▸ hpan
          simp only [hpan'] at h
          exact absurd h (by simp)
  · rintro ⟨hpo, ints, hexp, h3001⟩
    rcases hcb : buildConnected ops offset (((2 : ℚ) : N) * ops.pi / arcdetail)
        (buildSegments ops offset polygon) with _ | ⟨c0, crest⟩
    · exfalso
      have hdone : resolveOf ops polygon offset arcdetail = .done [] [] := by
        simp only [resolveOf, indicesOf, connectedOf, hcb]
        rfl
      rw [hdone] at hexp
      exact absurd hexp (by simp)
    · have hreq : resolveOf ops polygon offset arcdetail =
          resolveLoop ops ((c0 :: crest) ++ [c0])
            (resolveFuel ((List.range (((c0 :: crest) ++ [c0]).length - 1)).map
              Index.connected).length) .outer
            ((List.range (((c0 :: crest) ++ [c0]).length - 1)).map Index.connected)
            [] 0 := by
        simp only [resolveOf, indicesOf, connectedOf, hcb]
      rw [hreq] at hexp
      rw [offset_polygon, if_neg hpo]
      simp only [hcb, hexp]
  · intro rings h
    by_cases hpo : polygon.length = 0
    · exact Or.inl hpo
    · refine Or.inr ?_
      rw [offset_polygon, if_neg hpo] at h
      simp only at h
      rcases hcb : buildConnected ops offset (((2 : ℚ) : N) * ops.pi / arcdetail)
          (buildSegments ops offset polygon) with _ | ⟨c0, crest⟩ <;>
        simp only [hcb] at h
      · exact absurd h (by simp)
      · have hreq : resolveOf ops polygon offset arcdetail =
            resolveLoop ops ((c0 :: crest) ++ [c0])
              (resolveFuel ((List.range (((c0 :: crest) ++ [c0]).length - 1)).map
                Index.connected).length) .outer
              ((List.range (((c0 :: crest) ++ [c0]).length - 1)).map Index.connected)
              [] 0 := by
          simp only [resolveOf, indicesOf, connectedOf, hcb]
        rcases resolveOf_spec ops polygon offset arcdetail with
          ⟨idc, ints, hdone, hle, hTI⟩ | ⟨ints, hexp, h3001⟩ | hpan
        · exact ⟨idc, ints, hdone, hle⟩
        · exfalso
          have hexp' := hreq ▸ hexp
          simp only [hexp'] at h
          exact absurd h (by simp)
        · exfalso
          have hpan' := hreq ▸ hpan
          simp only [hpan'] at h
          exact absurd h (by simp)

/-- The exact output ring of the spec's scenario B in `ℚ(√2)`: the claimed
decimal coordinates stand for `9/10`, `1/10`, `9/10 − √2/10` and
`1/10 + √2/10`. -/
def triExpected : List (Coordinate Q2) :=
  [⟨qq (9 / 10), qq (1 / 10)⟩,
   ⟨qq (9 / 10), ⟨9 / 10, -(1 / 10)⟩⟩,
   ⟨⟨1 / 10, 1 / 10⟩, qq (1 / 10)⟩,
   ⟨qq (9 / 10), qq (1 / 10)⟩]

/-- Scenario B's acceptance test: within `10⁻⁹` of the claimed decimal
coordinate (the order of `ℚ(√2)` is decidable, so this is checkable). -/
@[reducible] def withinTol (x : Q2) (target : ℚ) : Prop :=
  |x - qq target| < qq (1 / 1000000000)

attribute [local semireducible] Rat.add Rat.mul Rat.sub Rat.inv Rat.ofScientific in
/-- CLAIM C9: on the closed triangle ring `[(0,0),(1,0),(1,1),(0,0)]` with
offset `−0.1` and arc resolution `10`, the embedding (run in the computable
field `ℚ(√2)`, whose `FloatOps` are exact at every input the run reaches)
returns success with exactly one ring, and each of its coordinates is within
`10⁻⁹` of the decimal coordinates claimed for the scenario:
`(0.9, 0.1)`, `(0.9, 0.7585786437626904)`, `(0.24142135623730954, 0.1)`,
`(0.9, 0.1)`. -/
theorem triangle_scenario :
    offset_polygon q2Ops triangleRing (qq (-1 / 10)) (qq 10) = .ok [triExpected] ∧
    withinTol (triExpected.getD 0 ⟨qq 0, qq 0⟩).x (9 / 10) ∧
    withinTol (triExpected.getD 0 ⟨qq 0, qq 0⟩).y (1 / 10) ∧
    withinTol (triExpected.getD 1 ⟨qq 0, qq 0⟩).x (9 / 10) ∧
    withinTol (triExpected.getD 1 ⟨qq 0, qq 0⟩).y (7585786437626904 / 10 ^ 16) ∧
    withinTol (triExpected.getD 2 ⟨qq 0, qq 0⟩).x (24142135623730954 / 10 ^ 17) ∧
    withinTol (triExpected.getD 2 ⟨qq 0, qq 0⟩).y (1 / 10) ∧
    withinTol (triExpected.getD 3 ⟨qq 0, qq 0⟩).x (9 / 10) ∧
    withinTol (triExpected.getD 3 ⟨qq 0, qq 0⟩).y (1 / 10) := by
  refine ⟨by decide, by decide, by decide, by decide, by decide, by decide,
    by decide, by decide, by decide⟩

/-- A legal instantiation of the `Float + FloatConst` bounds under which the
`intersect` panic is reached by a short ring: `epsilon` is `0.6`
(`N::epsilon()` is implementor-defined under the generic bound; with the
machine epsilon of `f32`/`f64` the same loop state is reached by a ring of
many sub-epsilon edges), `sqrt` is exact at both reached inputs (`1`, `1/4`),
`atan2` is exact (in the `π/4`-unit convention `pi = 4`) at its only reached
argument, the normal `(0, -1)`, and `ceilToNat` is exact everywhere.  `cos`
and `sin` are never reached: the only corner is the single retained edge
joined to itself, whose angular difference is `0`, so the arc has no interior
samples. -/
def panicProbeOps : FloatOps ℚ where
  epsilon := 3 / 5
  pi := 4
  sqrt := fun x => if x = 1 then 1 else if x = (1 / 4 : ℚ) then 1 / 2 else 0
  atan2 := fun y x => if y = -1 ∧ x = 0 then -2 else 0
  cos := fun _ => 0
  sin := fun _ => 0
  ceilToNat := fun x => (Int.ceil x).toNat

/-- A closed ring with one long edge and two sub-epsilon edges: only one
offset segment survives, the resolution sequence has exactly two entries, and
`rest` is empty at the first inner iteration. -/
def panicRing : List (Coordinate ℚ) :=
  [⟨0, 0⟩, ⟨1, 0⟩, ⟨1 / 2, 0⟩, ⟨0, 0⟩]

attribute [local semireducible] Rat.add Rat.mul Rat.sub Rat.inv Rat.ofScientific in
/-- Counterexample to C3 as stated: on this input the run reaches the panic
inside `intersect` — the range bound `line.0.len() - 1` underflows on the
empty `rest` polyline — so `offset_polygon` neither succeeds nor returns
`CombinatorialExplosion`, and the failure is distinct from the `connected[0]`
panic of claim C10. -/
theorem combinatorial_explosion_cap_counterexample :
    offset_polygon panicProbeOps panicRing (-1) 10 = .intersectPanic ∧
    (¬ ∃ rings, offset_polygon panicProbeOps panicRing (-1) 10 = .ok rings) ∧
    offset_polygon panicProbeOps panicRing (-1) 10 ≠ .combinatorialExplosion ∧
    offset_polygon panicProbeOps panicRing (-1) 10 ≠ .indexOutOfBounds := by
  have hrun : offset_polygon panicProbeOps panicRing (-1) 10 = .intersectPanic := by
    decide
  refine ⟨hrun, ?_, by rw [hrun]; simp, by rw [hrun]; simp⟩
  rintro ⟨rings, h⟩
  rw [hrun] at h
  exact absurd h (by simp)

end OffsetPoly
